import Mathlib

/-!
# Verification of the gslides-translator batch translation engine

A shallow embedding of the batch translation orchestration core of the
`eprouveze/gslides-translator` repository (files `app13.py`,
`batch-recovery.py`, `pptx_translator.py`), together with proofs and
refutations of the specified properties.

Python dictionaries are modelled as association lists (`Dict`) whose
operations mirror CPython semantics: assignment to an existing key
overwrites the value in place (keeping the key's position), assignment to
a fresh key appends, and `dict.update` folds assignments left to right.
Python strings are modelled as `String` / `List Char` (one `Char` per code
point, as in CPython).  The external LLM backend (the `anthropic` client
call) is modelled as an oracle parameter giving the outcome of each
request; everything else is translated from the source.
-/

namespace GSlides

/-- Association-list model of a Python `dict[str, str]`. -/
abbrev Dict := List (String × String)

/-- `d[k]` lookup: the value of the first (and in a well-formed dict, only)
entry with key `k`. -/
def dlookup (d : Dict) (k : String) : Option String :=
  (d.find? (fun p => p.1 == k)).map (fun p => p.2)

/-- `k in d` membership test. -/
def dmem (d : Dict) (k : String) : Bool :=
  (d.find? (fun p => p.1 == k)).isSome

/-- `list(d.keys())`. -/
def dkeys (d : Dict) : List String := d.map (fun p => p.1)

/-- `d[k] = v`: overwrite in place if `k` is present, else append. -/
def dinsert (d : Dict) (k : String) (v : String) : Dict :=
  if dmem d k then d.map (fun p => if p.1 == k then (p.1, v) else p)
  else d ++ [(k, v)]

/-- `d.update(e)`: assign every entry of `e` into `d`, left to right. -/
def dupdate (d : Dict) (e : Dict) : Dict :=
  e.foldl (fun a p => dinsert a p.1 p.2) d

/-! ## String helpers

`str.replace(old, new)` from Python, on `List Char` (left-to-right,
non-overlapping, as in CPython).  A fuel argument makes the recursion
structural; fuel `s.length` is enough whenever the pattern is non-empty,
which is the case at every use site. -/
def replaceSubGo (pat rep : List Char) : Nat → List Char → List Char
  | _, [] => []
  | 0, s => s
  | fuel + 1, c :: rest =>
    if (c :: rest).take pat.length = pat then
      rep ++ replaceSubGo pat rep fuel ((c :: rest).drop pat.length)
    else
      c :: replaceSubGo pat rep fuel rest

def replaceSub (pat rep s : List Char) : List Char :=
  replaceSubGo pat rep s.length s

/-- `text.replace('\\n', '\n').replace('\\u000b', '\v').replace('\\t', '\t')`
(`clean_text` in `app13.py`, used on every string value recovered from a
backend response). -/
def clean_text (s : String) : String :=
  String.mk (replaceSub ['\\', 't'] ['\t']
    (replaceSub ['\\', 'u', '0', '0', '0', 'b'] ['\x0b']
      (replaceSub ['\\', 'n'] ['\n'] s.data)))

/-- Apply `clean_text` to every value of a parsed batch result
(`for key, value in batch_result.items(): batch_result[key] = clean_text(value)`;
in this model every value is a string). -/
def cleanDict (d : Dict) : Dict :=
  d.map (fun p => (p.1, clean_text p.2))

namespace App13

/-! ## `app13.py` -/
/-- Token estimator nested in `split_dict_into_smart_batches` (app13.py
lines 215-218): `0` for `None`, else `len(str(text)) // 4 + 1`. -/
def estimate_tokens (text : Option String) : Nat :=
  match text with
  | none => 0
  | some s => s.length / 4 + 1

/-- Cost charged for one `(key, value)` item:
`estimate_tokens(key) + estimate_tokens(value) + 10` (line 229). -/
def item_tokens (k v : String) : Nat :=
  estimate_tokens (some k) + estimate_tokens (some v) + 10

/-- `items.sort(key=lambda x: estimate_tokens(x[1]), reverse=True)` —
CPython's stable descending sort, modelled by the (equally stable)
insertion sort with the matching total preorder. -/
def sortItems (items : List (String × String)) : List (String × String) :=
  items.insertionSort
    (fun a b => estimate_tokens (some b.2) ≤ estimate_tokens (some a.2))

/-- The batching loop of `split_dict_into_smart_batches` (lines 228-240):
close the running batch when the next item would push the running token
count over `max_input_tokens` — but only if the batch is non-empty — and
seed a fresh batch at `prompt_tokens`. -/
def split_go (max_input_tokens prompt_tokens : Nat) :
    List (String × String) → Dict → Nat → List Dict
  | [], cur, _ => if cur.isEmpty then [] else [cur]
  | (k, v) :: rest, cur, cnt =>
    let it := item_tokens k v
    if cnt + it > max_input_tokens ∧ ¬ cur.isEmpty then
      cur :: split_go max_input_tokens prompt_tokens rest (dinsert [] k v) (prompt_tokens + it)
    else
      split_go max_input_tokens prompt_tokens rest (dinsert cur k v) (cnt + it)

/-- `split_dict_into_smart_batches(input_dict, max_input_tokens, prompt_tokens)`
(app13.py lines 210-250; the trailing statistics printing has no effect on
the result). -/
def split_dict_into_smart_batches (input_dict : Dict)
    (max_input_tokens : Nat) (prompt_tokens : Nat) : List Dict :=
  split_go max_input_tokens prompt_tokens (sortItems input_dict) [] prompt_tokens

/-- The grouping loop of `deduplicate_content` (lines 492-497): map each
distinct text value to the list of keys carrying it, in encounter order. -/
def ctk_go (acc : List (String × List String)) :
    List (String × String) → List (String × List String)
  | [] => acc
  | (k, v) :: rest =>
    ctk_go
      (if (acc.find? (fun p => p.1 == v)).isSome then
        acc.map (fun p => if p.1 == v then (p.1, p.2 ++ [k]) else p)
      else
        acc ++ [(v, [k])])
      rest

def content_to_keys (input_dict : Dict) : List (String × List String) :=
  ctk_go [] input_dict

/-- `deduplicate_content(input_dict)` (app13.py lines 491-511): pick the
first key of each value group as representative; `unique_content` maps
representative to text, `duplicates_map` maps every key to its group's
representative. -/
def deduplicate_content (input_dict : Dict) : Dict × Dict :=
  let c2k := content_to_keys input_dict
  let unique_content :=
    c2k.foldl (fun u p => dinsert u (p.2.headD "") p.1) []
  let duplicates_map :=
    c2k.foldl (fun m p => p.2.foldl (fun m' k => dinsert m' k (p.2.headD "")) m) []
  (unique_content, duplicates_map)

/-- One backend request.  Arguments: a label identifying the call site
(batch index / sub-batch id / final batch), the attempt number, and the
payload dict.  The result is the parsed mapping on success or the raised
error message on failure; the API call, response parsing and repair
cascade of `translate_batch` are collapsed into this outcome (the cascade
itself is modelled separately below for the parsing claims). -/
abbrev Oracle := String → Nat → Dict → Except String Dict

/-- The retry loop of `translate_batch` (lines 425-481): attempts
`0, 1, ..., max_retries`; each failed attempt before the last is retried,
the last failure re-raises the error.  On success every string value is
passed through `clean_text`. -/
def translate_batch_go (oracle : Oracle) (label : String) (batch : Dict) :
    Nat → Nat → Except String Dict
  | attempt, 0 => (oracle label attempt batch).map cleanDict
  | attempt, fuel + 1 =>
    match oracle label attempt batch with
    | .ok r => .ok (cleanDict r)
    | .error _ => translate_batch_go oracle label batch (attempt + 1) fuel

/-- `translate_batch(batch, batch_index, ..., max_retries)`. -/
def translate_batch (oracle : Oracle) (label : String) (batch : Dict)
    (max_retries : Nat) : Except String Dict :=
  translate_batch_go oracle label batch 0 max_retries

/-- One entry of `recovery_state["failed_batches"]`
(`{"batch_id": ..., "keys": ..., "error": ...}`, lines 562-566). -/
structure FailedBatch where
  batch_id : String
  keys : List String
  error : String
deriving DecidableEq, Repr

/-- The fields of `recovery_state` that the orchestration logic reads or
writes (`setup_recovery_system`, lines 353-363).  The bookkeeping fields
(`presentation_id`, languages, `total_items`, timestamps) never influence
control flow and are omitted. -/
structure RecoveryState where
  completed_batches : List String
  failed_batches : List FailedBatch
  translated_items : Dict
  duplicates_map : Dict
deriving DecidableEq, Repr

/-- A freshly created recovery state (lines 353-363). -/
def initialRecoveryState : RecoveryState :=
  { completed_batches := [], failed_batches := [], translated_items := [],
    duplicates_map := [] }

/-- `f"batch_{batch_index+1}"` (line 541). -/
def batchLabel (i : Nat) : String :=
  "batch_" ++ toString (i + 1)

/-- One iteration of the `TRANSLATING` loop (lines 540-570): skip batches
whose id is in `completed_batches`; otherwise translate with 2 retries; on
success merge the result into the running dict and the persisted items and
mark the batch completed, on failure append a `FailedBatch` record and
continue. -/
def translating_step (oracle : Oracle) (st : Dict × RecoveryState)
    (ib : Nat × Dict) : Dict × RecoveryState :=
  let batch_id := batchLabel ib.1
  if batch_id ∈ st.2.completed_batches then st
  else
    match translate_batch oracle (toString (ib.1 + 1)) ib.2 2 with
    | .ok r =>
      (dupdate st.1 r,
        { st.2 with
          translated_items := dupdate st.2.translated_items r,
          completed_batches := st.2.completed_batches ++ [batch_id] })
    | .error e =>
      (st.1,
        { st.2 with
          failed_batches := st.2.failed_batches ++ [⟨batch_id, dkeys ib.2, e⟩] })

/-- The whole `TRANSLATING` loop over the enumerated batches. -/
def translatingLoop (oracle : Oracle) (batches : List Dict)
    (st : Dict × RecoveryState) : Dict × RecoveryState :=
  batches.enum.foldl (translating_step oracle) st

/-- `[retry_items[i:i+chunk_size] for i in range(0, len(retry_items), chunk_size)]`
with a structural fuel argument; fuel `l.length` is enough for any positive
chunk size (`chunk_size >= 5` at the call site, line 584). -/
def chunkGo (n : Nat) : Nat → List (String × String) → List Dict
  | _, [] => []
  | 0, l => [l]
  | fuel + 1, c :: rest =>
    (c :: rest).take n :: chunkGo n fuel (rest.drop (n - 1))

def chunkList (n : Nat) (l : List (String × String)) : List Dict :=
  chunkGo n l.length l

/-- `retry_batch = {k: text_dict[k] for k in keys if k in text_dict}` (line 583). -/
def rebuildBatch (text_dict : Dict) (keys : List String) : Dict :=
  keys.foldl
    (fun a k => match dlookup text_dict k with
      | some v => dinsert a k v
      | none => a)
    []

/-- One sub-batch attempt inside the failed-batch retry loop (lines
591-607): translate with 3 retries; on success merge the result and record
the sub-batch id completed, on failure continue unchanged. -/
def reconcile_sub_step (oracle : Oracle) (fb : FailedBatch)
    (s : Dict × RecoveryState) (isb : Nat × Dict) : Dict × RecoveryState :=
  let sub_id := fb.batch_id ++ "_sub_" ++ toString (isb.1 + 1)
  match translate_batch oracle (fb.batch_id ++ "." ++ toString (isb.1 + 1)) isb.2 3 with
  | .ok r =>
    (dupdate s.1 r,
      { s.2 with
        translated_items := dupdate s.2.translated_items r,
        completed_batches := s.2.completed_batches ++ [sub_id] })
  | .error _ => s

/-- One iteration of the failed-batch retry loop in `RECONCILING_FAILURES`
(lines 579-610): re-fetch the fragments, split into sub-batches of
`max(5, len(retry_batch) // 4)`, translate each with 3 retries (successes
update the dicts and `completed_batches`; failures just continue), and
finally `failed_batches.remove(failed_batch)` — unconditionally. -/
def reconcile_step (oracle : Oracle) (text_dict : Dict)
    (st : Dict × RecoveryState) (fb : FailedBatch) : Dict × RecoveryState :=
  let retry_batch := rebuildBatch text_dict fb.keys
  let chunk_size := max 5 (retry_batch.length / 4)
  let sub_batches := chunkList chunk_size retry_batch
  let st' := sub_batches.enum.foldl (reconcile_sub_step oracle fb) st
  (st'.1, { st'.2 with failed_batches := st'.2.failed_batches.erase fb })

/-- The `RECONCILING_FAILURES` stage (lines 576-610): iterate over a
snapshot (`list(recovery_state["failed_batches"])`) of the failed batches
while the live list is modified. -/
def reconcileLoop (oracle : Oracle) (text_dict : Dict)
    (st : Dict × RecoveryState) : Dict × RecoveryState :=
  st.2.failed_batches.foldl (reconcile_step oracle text_dict) st

/-- Duplicate re-expansion (lines 612-618): copy the unique translations,
then for every `original_key -> rep_key` pair set
`full[original_key] = unique_translated[rep_key]` when the representative
was translated and the key differs from it. -/
def expandDuplicates (duplicates_map unique_translated : Dict) : Dict :=
  let full := dupdate [] unique_translated
  duplicates_map.foldl
    (fun f p =>
      match dlookup unique_translated p.2 with
      | some v => if p.1 ≠ p.2 then dinsert f p.1 v else f
      | none => f)
    full

/-- The `FINAL_SWEEP` stage (lines 622-707): compute the still-missing
keys, and if there are any, issue one un-retried backend call for exactly
those keys; on success clean the values and merge them into the result and
the persisted items, on any failure leave everything unchanged.  (Python
iterates the missing ids as a `set`, whose order is unspecified; the
embedding uses `text_dict` order.  The result is order-insensitive since
the keys are distinct.) -/
def finalSweep (oracle : Oracle) (text_dict : Dict) (full : Dict)
    (rs : RecoveryState) : Dict × RecoveryState :=
  let missing := (dkeys text_dict).filter (fun k => ! dmem full k)
  if missing.isEmpty then (full, rs)
  else
    let missing_dict := rebuildBatch text_dict missing
    match oracle "final_batch" 0 missing_dict with
    | .ok r =>
      let final_batch := cleanDict r
      (dupdate full final_batch,
        { rs with translated_items := dupdate rs.translated_items final_batch })
    | .error _ => (full, rs)

/-- `translate_text(text_dict, ..., resume_file)` (app13.py lines 483-711),
returning the reconstructed full translation dict together with the final
recovery state.  `resume` models the optional recovery file: `none` is a
fresh job, `some rs` resumes from checkpoint contents `rs`. -/
def translate_text (oracle : Oracle) (text_dict : Dict)
    (resume : Option RecoveryState) : Dict × RecoveryState :=
  let recovery_state := resume.getD initialRecoveryState
  let start :=
    if recovery_state.translated_items.isEmpty then
      let ud := deduplicate_content text_dict
      (ud.1, { recovery_state with duplicates_map := ud.2 })
    else
      let reps := recovery_state.duplicates_map.map (fun p => p.2)
      (text_dict.filter (fun p => ! reps.contains p.1), recovery_state)
  let unique_text_dict := start.1
  let rs0 := start.2
  let remaining :=
    unique_text_dict.filter (fun p => ! dmem rs0.translated_items p.1)
  if remaining.isEmpty then
    finalSweep oracle text_dict rs0.translated_items rs0
  else
    let batches := split_dict_into_smart_batches remaining 150000 2000
    let st1 := translatingLoop oracle batches (rs0.translated_items, rs0)
    let st2 := reconcileLoop oracle text_dict st1
    let full := expandDuplicates rs0.duplicates_map st2.1
    finalSweep oracle text_dict full st2.2

/-- The key-to-representative dict built by `deduplicate_content`, as a
plain list: for each group, one entry per key. -/
def dmSpec (input : Dict) : Dict :=
  (content_to_keys input).flatMap (fun q => q.2.map (fun k => (k, q.2.headD "")))

/-- First-encountered key with a given text. -/
def firstKeyWith (input : Dict) (v : String) : Option String :=
  (input.find? (fun p => p.2 == v)).map (fun p => p.1)

/-! ## Characterization of `split_dict_into_smart_batches` -/
/-- Total estimated cost of a batch. -/
def batch_cost (b : Dict) : Nat :=
  (b.map (fun p => item_tokens p.1 p.2)).sum

end App13

namespace PptxTranslator

/-! ## `pptx_translator.py` -/
/-- Token estimator of `pptx_translator.py` lines 462-476: `0` for `None`;
otherwise `cjk_chars` counts code points strictly between U+4E00 and
U+9FFF, `ascii_chars` is every other character, and the estimate is
`ascii_chars // 4 + cjk_chars // 1.5 + 1` (CPython's float floor division
`n // 1.5` equals `⌊2n/3⌋` for every character count that fits a float). -/
def estimate_tokens (text : Option String) : Nat :=
  match text with
  | none => 0
  | some s =>
    let cjk_chars :=
      (s.data.filter (fun c => decide (0x4E00 < c.toNat ∧ c.toNat < 0x9FFF))).length
    let ascii_chars := s.length - cjk_chars
    ascii_chars / 4 + 2 * cjk_chars / 3 + 1

/-- Count of wide-script characters, written from the spec's wording for
the refinement comparison. -/
def wideCount (s : String) : Nat :=
  (s.data.filter (fun c => decide (0x4E00 < c.toNat ∧ c.toNat < 0x9FFF))).length

/-- Count of narrow-script characters per the spec's wording. -/
def narrowCount (s : String) : Nat :=
  s.length - wideCount s

end PptxTranslator

/-! ## Response parsing and repair (`app13.py` lines 252-336, 442-465)

`json.loads` is modelled for the shape this code consumes: one JSON object
whose values are strings or integers (every backend response the code can
use parses to a `dict` of translations).  Escapes `\" \\ \/ \n \t \r \b \f`
are supported; `\uXXXX` escapes, floats, and nested arrays/objects are
outside the modelled fragment and reject (the theorems below never depend
on inputs using them).  A top-level non-object also rejects here (the real
code would parse it and crash later, outside the repair cascade).  The
parser reports whether the failure is an unterminated string, and the
0-based index of its opening quote, mirroring the line/column that
CPython's `json` reports and `repair_json` consumes. -/
inductive JVal where
  | str (s : String)
  | num (n : Int)
deriving DecidableEq, Repr

/-- A parsed JSON object (later assignments overwrite earlier keys, as in
Python). -/
abbrev JObj := List (String × JVal)

def jinsert (d : JObj) (k : String) (v : JVal) : JObj :=
  if (d.find? (fun p => p.1 == k)).isSome then
    d.map (fun p => if p.1 == k then (p.1, v) else p)
  else d ++ [(k, v)]

def jupdate (d e : JObj) : JObj :=
  e.foldl (fun a p => jinsert a p.1 p.2) d

inductive JErr where
  | unterminated (pos : Nat)
  | other
deriving DecidableEq, Repr

def isJsonWs (c : Char) : Bool :=
  c = ' ' ∨ c = '\t' ∨ c = '\n' ∨ c = '\r'

def jSkipWs : List Char → Nat → List Char × Nat
  | [], i => ([], i)
  | c :: rest, i =>
    if isJsonWs c then jSkipWs rest (i + 1) else (c :: rest, i)

def jEscChar (c : Char) : Option Char :=
  if c = '"' then some '"'
  else if c = '\\' then some '\\'
  else if c = '/' then some '/'
  else if c = 'n' then some '\n'
  else if c = 't' then some '\t'
  else if c = 'r' then some '\r'
  else if c = 'b' then some '\x08'
  else if c = 'f' then some '\x0c'
  else none

/-- Parse the rest of a JSON string whose opening quote stood at index
`qpos`. -/
def jParseStringGo (qpos : Nat) (acc : List Char) :
    List Char → Nat → Except JErr (String × List Char × Nat)
  | [], _ => .error (.unterminated qpos)
  | c :: rest, i =>
    if c = '"' then .ok (String.mk acc, rest, i + 1)
    else if c = '\\' then
      match rest with
      | [] => .error (.unterminated qpos)
      | e :: rest2 =>
        match jEscChar e with
        | some d => jParseStringGo qpos (acc ++ [d]) rest2 (i + 2)
        | none => .error .other
    else if c.toNat < 0x20 then .error .other
    else jParseStringGo qpos (acc ++ [c]) rest (i + 1)

def jTakeDigits : List Char → List Char × List Char
  | [] => ([], [])
  | c :: rest =>
    if c.isDigit then
      let r := jTakeDigits rest
      (c :: r.1, r.2)
    else ([], c :: rest)

def digitsToNat (ds : List Char) : Nat :=
  ds.foldl (fun n c => 10 * n + (c.toNat - '0'.toNat)) 0

def jParseNumber (cs : List Char) (i : Nat) :
    Except JErr (Int × List Char × Nat) :=
  let neg := cs.head? = some '-'
  let cs2 := if neg then cs.drop 1 else cs
  let dr := jTakeDigits cs2
  if dr.1.isEmpty then .error .other
  else if dr.1.length > 1 ∧ dr.1.headD '0' = '0' then .error .other
  else
    let n : Int := Int.ofNat (digitsToNat dr.1)
    .ok (if neg then -n else n, dr.2, i + (if neg then 1 else 0) + dr.1.length)

def jParseValue (cs : List Char) (i : Nat) :
    Except JErr (JVal × List Char × Nat) :=
  match cs with
  | '"' :: rest =>
    match jParseStringGo i [] rest (i + 1) with
    | .error e => .error e
    | .ok (s, r, j) => .ok (.str s, r, j)
  | c :: _ =>
    if c = '-' ∨ c.isDigit then
      match jParseNumber cs i with
      | .error e => .error e
      | .ok (n, r, j) => .ok (.num n, r, j)
    else .error .other
  | [] => .error .other

/-- The members of an object, positioned at the start of a key. -/
def jParseMembersGo : Nat → JObj → List Char → Nat →
    Except JErr (JObj × List Char × Nat)
  | 0, _, _, _ => .error .other
  | fuel + 1, obj, cs, i =>
    match cs with
    | '"' :: rest =>
      match jParseStringGo i [] rest (i + 1) with
      | .error e => .error e
      | .ok (key, r1, j1) =>
        let w2 := jSkipWs r1 j1
        match w2.1 with
        | ':' :: r3 =>
          let w4 := jSkipWs r3 (w2.2 + 1)
          match jParseValue w4.1 w4.2 with
          | .error e => .error e
          | .ok (v, r5, j5) =>
            let obj2 := jinsert obj key v
            let w6 := jSkipWs r5 j5
            match w6.1 with
            | ',' :: r7 =>
              let w8 := jSkipWs r7 (w6.2 + 1)
              jParseMembersGo fuel obj2 w8.1 w8.2
            | '\x7d' :: r7 => .ok (obj2, r7, w6.2 + 1)
            | _ => .error .other
        | _ => .error .other
    | _ => .error .other

/-- `json.loads` on the modelled fragment. -/
def json_loads (text : String) : Except JErr JObj :=
  let cs := text.data
  let w1 := jSkipWs cs 0
  match w1.1 with
  | '\x7b' :: r2 =>
    let w3 := jSkipWs r2 (w1.2 + 1)
    match w3.1 with
    | '\x7d' :: r4 =>
      let w5 := jSkipWs r4 (w3.2 + 1)
      if w5.1.isEmpty then .ok [] else .error .other
    | _ =>
      match jParseMembersGo cs.length [] w3.1 w3.2 with
      | .error e => .error e
      | .ok (obj, r4, i4) =>
        let w5 := jSkipWs r4 i4
        if w5.1.isEmpty then .ok obj else .error .other
  | _ => .error .other

namespace App13

def countChar (c : Char) (cs : List Char) : Nat :=
  (cs.filter (fun d => d = c)).length

/-- 1-based line and column of a character index, as CPython's json module
reports them. -/
def lineColOfPos (cs : List Char) (pos : Nat) : Nat × Nat :=
  let before := cs.take pos
  (countChar '\n' before + 1,
    (before.reverse.takeWhile (fun c => c ≠ '\n')).length + 1)

/-- The "Unterminated string" special case of `repair_json` (lines
262-278): locate the reported line/column; if that character is a double
quote (it is the string's opening quote), escape it, else append a quote
to the line. -/
def applyUntermFix (cs : List Char) (pos : Nat) : List Char :=
  let lc := lineColOfPos cs pos
  let lines := cs.splitOn '\n'
  if lc.1 - 1 < lines.length then
    let line := lines.getD (lc.1 - 1) []
    let line2 :=
      if lc.2 - 1 < line.length ∧ line.getD (lc.2 - 1) ' ' = '"' then
        line.take (lc.2 - 1) ++ ['\\', '"'] ++ line.drop lc.2
      else line ++ ['"']
    List.intercalate ['\n'] (lines.set (lc.1 - 1) line2)
  else cs

/-- Brace balancing (lines 280-285): append missing closers, or repeatedly
right-strip whitespace and trailing closers when there are too many. -/
def rstripWs (cs : List Char) : List Char :=
  (cs.reverse.dropWhile (fun c =>
    c = ' ' ∨ c = '\t' ∨ c = '\n' ∨ c = '\r' ∨ c = '\x0b' ∨ c = '\x0c')).reverse

def rstripBrace (cs : List Char) : List Char :=
  (cs.reverse.dropWhile (fun c => c = '\x7d')).reverse

def stripCloserLoop : Nat → List Char → List Char
  | 0, cs => cs
  | n + 1, cs => stripCloserLoop n (rstripWs (rstripBrace (rstripWs cs)))

def balanceBraces (cs : List Char) : List Char :=
  let bc : Int := Int.ofNat (countChar '\x7b' cs) - Int.ofNat (countChar '\x7d' cs)
  if bc > 0 then cs ++ List.replicate bc.toNat '\x7d'
  else if bc < 0 then stripCloserLoop (-bc).toNat cs
  else cs

def isRegexWs (c : Char) : Bool :=
  c = ' ' ∨ c = '\t' ∨ c = '\n' ∨ c = '\r' ∨ c = '\x0b' ∨ c = '\x0c'

def dropWsThenClose (close : Char) : List Char → Option (List Char)
  | [] => none
  | c :: rest =>
    if isRegexWs c then dropWsThenClose close rest
    else if c = close then some rest
    else none

/-- `re.sub(r',\s*CLOSE', 'CLOSE', ...)` (lines 287-288): left-to-right,
non-overlapping. -/
def removeTrailingCommasGo (close : Char) : Nat → List Char → List Char
  | _, [] => []
  | 0, cs => cs
  | fuel + 1, c :: rest =>
    if c = ',' then
      match dropWsThenClose close rest with
      | some rest2 => close :: removeTrailingCommasGo close fuel rest2
      | none => c :: removeTrailingCommasGo close fuel rest
    else c :: removeTrailingCommasGo close fuel rest

def removeTrailingCommas (close : Char) (cs : List Char) : List Char :=
  removeTrailingCommasGo close cs.length cs

def isWordChar (c : Char) : Bool :=
  c.isAlpha ∨ c.isDigit ∨ c = '_'

/-- `re.sub(r'([a-zA-Z0-9_]+):', fix_property_names, ...)` (lines
290-296): a run of word characters directly followed by a colon is
quoted (the captured group can never itself carry quotes, so
`fix_property_names` always quotes it). -/
def quoteBareKeysGo : Nat → List Char → List Char
  | _, [] => []
  | 0, cs => cs
  | fuel + 1, c :: rest =>
    if isWordChar c then
      let run := (c :: rest).takeWhile isWordChar
      let after := (c :: rest).dropWhile isWordChar
      match after with
      | ':' :: rest2 => '"' :: run ++ ['"', ':'] ++ quoteBareKeysGo fuel rest2
      | _ => run ++ quoteBareKeysGo fuel after
    else c :: quoteBareKeysGo fuel rest

def quoteBareKeys (cs : List Char) : List Char :=
  quoteBareKeysGo cs.length cs

/-- One attempted match of the salvage pattern
`"([^"]+)"\s*:\s*"([^"]*)"|"([^"]+)"\s*:\s*([0-9]+)` at the head of the
text (string alternative preferred, as in `re`). -/
def parseSalvageAt (cs : List Char) : Option ((String × JVal) × List Char) :=
  match cs with
  | '"' :: rest =>
    let key := rest.takeWhile (fun c => c ≠ '"')
    let after := rest.dropWhile (fun c => c ≠ '"')
    match after with
    | '"' :: r1 =>
      if key.isEmpty then none
      else
        let r2 := r1.dropWhile isRegexWs
        match r2 with
        | ':' :: r3 =>
          let r4 := r3.dropWhile isRegexWs
          match r4 with
          | '"' :: r5 =>
            let v := r5.takeWhile (fun c => c ≠ '"')
            let vafter := r5.dropWhile (fun c => c ≠ '"')
            match vafter with
            | '"' :: r6 => some ((String.mk key, .str (String.mk v)), r6)
            | _ => none
          | _ =>
            let ds := r4.takeWhile Char.isDigit
            if ds.isEmpty then none
            else some ((String.mk key, .num (Int.ofNat (digitsToNat ds))),
              r4.drop ds.length)
        | _ => none
    | _ => none
  | _ => none

/-- `re.finditer` of the salvage pattern over the raw text, collecting the
pairs into a dict (lines 302-309). -/
def regexSalvageGo : Nat → List Char → JObj → JObj
  | _, [], acc => acc
  | 0, _, acc => acc
  | fuel + 1, c :: rest, acc =>
    match parseSalvageAt (c :: rest) with
    | some (kv, r) => regexSalvageGo fuel r (jinsert acc kv.1 kv.2)
    | none => regexSalvageGo fuel rest acc

def regexSalvage (cs : List Char) : JObj :=
  regexSalvageGo cs.length cs []

/-- The repair pass of `repair_json` between its two parse attempts
(lines 262-296), applied to the content given the initial parse error. -/
def repairSteps (json_content : String) (e : JErr) : List Char :=
  quoteBareKeys (removeTrailingCommas ']' (removeTrailingCommas '\x7d'
    (balanceBraces
      (match e with
       | .unterminated pos => applyUntermFix json_content.data pos
       | .other => json_content.data))))

/-- `repair_json(json_content)` (lines 252-315): strict parse; on failure
repair and re-parse; on failure regex-salvage the **original** content and
return the pairs if any were found; else re-raise (`none`). -/
def repair_json (json_content : String) : Option JObj :=
  match json_loads json_content with
  | .ok o => some o
  | .error e =>
    match json_loads (String.mk (repairSteps json_content e)) with
    | .ok o => some o
    | .error _ =>
      let salvage := regexSalvage json_content.data
      if salvage.isEmpty then none else some salvage

/-- One block candidate of `re.findall(r'(\x7b[^\x7b]*?\x7d)', text)`:
from an opening brace, the run up to the first brace of either kind; a
match needs that brace to be a closer. -/
def findBlocksGo : Nat → List Char → List (List Char)
  | _, [] => []
  | 0, _ => []
  | fuel + 1, c :: rest =>
    if c = '\x7b' then
      let mid := rest.takeWhile (fun d => d ≠ '\x7b' ∧ d ≠ '\x7d')
      let after := rest.drop mid.length
      match after with
      | '\x7d' :: r2 => ('\x7b' :: mid ++ ['\x7d']) :: findBlocksGo fuel r2
      | _ => findBlocksGo fuel after
    else findBlocksGo fuel rest

def findBlocks (cs : List Char) : List (List Char) :=
  findBlocksGo cs.length cs

/-- `extract_json_blocks(text)` (app13.py lines 317-336): try-parse every
non-nested brace block, merge the parsed ones (later blocks overwrite),
`None` if none parsed. -/
def extract_json_blocks (text : String) : Option JObj :=
  let valid := (findBlocks text.data).filterMap
    (fun b => (json_loads (String.mk b)).toOption)
  if valid.isEmpty then none
  else some (valid.foldl (fun acc b => jupdate acc b) [])

/-- The response-parsing cascade of one `translate_batch` attempt (lines
449-465), on the fence-stripped content: strict parse, then
`repair_json`, then `extract_json_blocks` guarded by the caller's
`if extracted_result:` truthiness test (line 456) — a `None` result *and*
an empty extracted dict both fall through to the failure path; `none`
models raising the parse error (which the enclosing loop answers with a
retry or, on the last attempt, a raised exception). -/
def parse_response (json_content : String) : Option JObj :=
  match json_loads json_content with
  | .ok o => some o
  | .error _ =>
    match repair_json json_content with
    | some o => some o
    | none =>
      match extract_json_blocks json_content with
      | some r => if r.isEmpty then none else some r
      | none => none

end App13

namespace BatchRecovery

/-! ## `batch-recovery.py` -/
/-- One entry of `recovery_state["failed_batches"]` in `batch-recovery.py`
(lines 73-78). -/
structure FailedBatchInfo where
  batch_index : String
  items : List String
  error : String
  batch_size : Nat
deriving DecidableEq, Repr

/-- The recovery state of `implement_batch_recovery` (lines 27-35; language
and timestamp bookkeeping omitted as in the app13 model). -/
structure RecoveryState where
  completed_batches : List String
  failed_batches : List FailedBatchInfo
  translated_items : Dict
deriving DecidableEq, Repr

/-- `process_batch(batch, batch_index, batch_size)` (batch-recovery.py lines
47-81).  The translation call itself is elided in the source (the
placeholder comment "[Your existing batch translation code goes here]"
lines 57-59); it is modelled as an oracle from the call's label and payload
to its outcome.  On success the results are merged into
`translated_items`, the index is recorded completed and
`(True, result)` returned; on failure a `FailedBatchInfo` entry is
appended and `(False, {})` returned. -/
def process_batch (oracle : String → Dict → Except String Dict)
    (st : RecoveryState) (batch : Dict) (batch_index : String)
    (batch_size : Nat) : (Bool × Dict) × RecoveryState :=
  match oracle batch_index batch with
  | .ok r =>
    ((true, r),
      { st with
        translated_items := dupdate st.translated_items r,
        completed_batches := st.completed_batches ++ [batch_index] })
  | .error e =>
    ((false, []),
      { st with
        failed_batches := st.failed_batches ++ [⟨batch_index, dkeys batch, e, batch_size⟩] })

/-- One sub-batch iteration of `retry_failed_batches` (lines 115-131):
run `process_batch` on the sub-batch; on success count it and merge the
result into `translated_items` once more (the source updates twice). -/
def retry_inner_step (oracle : String → Dict → Except String Dict)
    (fb : FailedBatchInfo) (new_batch_size : Nat)
    (acc : RecoveryState × Nat) (isb : Nat × Dict) : RecoveryState × Nat :=
  let pr := process_batch oracle acc.1 isb.2
    (fb.batch_index ++ "." ++ toString (isb.1 + 1)) new_batch_size
  if pr.1.1 then
    ({ pr.2 with translated_items := dupdate pr.2.translated_items pr.1.2 },
      acc.2 + 1)
  else (pr.2, acc.2)

/-- One failed batch's retry in `retry_failed_batches` (lines 90-139):
halve the batch size (at least 1), rebuild the fragment dict, chunk it,
process every sub-batch, and remove the entry from `failed_batches` only
when **all** sub-batches succeeded. -/
def retry_step (oracle : String → Dict → Except String Dict)
    (text_dict : Dict) (st : RecoveryState) (fb : FailedBatchInfo) :
    RecoveryState :=
  let new_batch_size := max 1 (fb.batch_size / 2)
  let retry_dict := App13.rebuildBatch text_dict fb.items
  let sub_batches := App13.chunkList new_batch_size retry_dict
  let res := sub_batches.enum.foldl
    (retry_inner_step oracle fb new_batch_size) (st, 0)
  if res.2 = sub_batches.length then
    { res.1 with failed_batches := res.1.failed_batches.erase fb }
  else res.1

/-- `retry_failed_batches()` (lines 84-139), iterating over a snapshot of
the failed list. -/
def retry_failed_batches (oracle : String → Dict → Except String Dict)
    (text_dict : Dict) (st : RecoveryState) : RecoveryState :=
  st.failed_batches.foldl (retry_step oracle text_dict) st

end BatchRecovery

/-! ## Checkpoint writing (`save_recovery_state`, app13.py lines 368-371) -/
/-- `save_recovery_state` rewrites the checkpoint file **in place**:
`open(recovery_file, 'w')` truncates the file to empty, then `json.dump`
writes the serialized state.  Each step is one atomic transition of the
file contents. -/
def save_recovery_state_steps (serialized : String) : List (String → String) :=
  [fun _ => "", fun _ => serialized]

/-- Contents of the checkpoint file after the first `n` steps of a save
over previous contents `old` have executed — a crash stops the remaining
steps. -/
def runSavePrefix (steps : List (String → String)) (n : Nat) (old : String) :
    String :=
  (steps.take n).foldl (fun contents step => step contents) old

/-! ## Injectivity of the numeric batch labels -/
/-- The digit list of a natural number, most significant first. -/
def natDigits (n : Nat) : List Char :=
  if _h : n < 10 then [Nat.digitChar n]
  else natDigits (n / 10) ++ [Nat.digitChar (n % 10)]
termination_by n
decreasing_by exact Nat.div_lt_self (by omega) (by decide)

/-! ## `TRANSLATING` loop characterization -/
/-- The failure record the `TRANSLATING` loop keeps for a batch, if any. -/
def failRecordOf (oracle : App13.Oracle) (ib : Nat × Dict) :
    Option App13.FailedBatch :=
  match App13.translate_batch oracle (toString (ib.1 + 1)) ib.2 2 with
  | .ok _ => none
  | .error e => some ⟨App13.batchLabel ib.1, dkeys ib.2, e⟩

/-- The step function of the duplicate re-expansion fold, named so that
lemmas can refer to it. -/
def expandStep (ut : Dict) (f : Dict) (p : String × String) : Dict :=
  match dlookup ut p.2 with
  | some v => if p.1 ≠ p.2 then dinsert f p.1 v else f
  | none => f

/-- A backend stub that returns the payload unchanged. -/
def echoOracle : App13.Oracle := fun _ _ payload => Except.ok payload

/-- A backend stub that fails every request. -/
def failOracle : App13.Oracle := fun _ _ _ => Except.error "boom"

/-! ## Rebuilt batches and sub-batch chunks -/
/-- The step of the `rebuildBatch` fold, named for the lemmas below. -/
def rebuildStep (text_dict : Dict) (a : Dict) (k : String) : Dict :=
  match dlookup text_dict k with
  | some v => dinsert a k v
  | none => a

/-! ## Deterministic backend and value soundness -/
/-- A deterministic backend stub: it translates every requested fragment
by the pure text function `f` and always succeeds. -/
def detOracle (f : String → String) : App13.Oracle :=
  fun _ _ payload => Except.ok (payload.map (fun p => (p.1, f p.2)))

/-- Every entry of `d` maps a key of `td` to the cleaned deterministic
translation of its text. -/
def Sound (f : String → String) (td d : Dict) : Prop :=
  ∀ p ∈ d, ∃ t, dlookup td p.1 = some t ∧ p.2 = clean_text (f t)

/-- The recovery state persisted after the first `N` batches of a fresh
run with the deterministic backend (on a fresh run the remaining dict
equals the deduplicated unique dict, so the smart batches are computed
from it directly). -/
def checkpointAfter (f : String → String) (td : Dict) (N : Nat) :
    App13.RecoveryState :=
  (App13.translatingLoop (detOracle f)
    ((App13.split_dict_into_smart_batches
      (App13.deduplicate_content td).1 150000 2000).take N)
    ([], { App13.initialRecoveryState with
            duplicates_map := (App13.deduplicate_content td).2 })).2


theorem dlookup_nil (k : String) : dlookup [] k = none := rfl

theorem dmem_nil (k : String) : dmem [] k = false := rfl

theorem dlookup_cons (p : String × String) (d : Dict) (k : String) :
    dlookup (p :: d) k = if p.1 = k then some p.2 else dlookup d k := by
  by_cases h : p.1 = k
  · simp [dlookup, List.find?_cons_of_pos, h]
  · simp [dlookup, List.find?_cons_of_neg, h]

theorem dmem_cons (p : String × String) (d : Dict) (k : String) :
    dmem (p :: d) k = (p.1 == k || dmem d k) := by
  by_cases h : p.1 = k
  · simp [dmem, List.find?_cons_of_pos, h]
  · simp [dmem, List.find?_cons_of_neg, h]

theorem dkeys_cons (p : String × String) (d : Dict) :
    dkeys (p :: d) = p.1 :: dkeys d := rfl

theorem dmem_iff_mem_dkeys (d : Dict) (k : String) :
    dmem d k = true ↔ k ∈ dkeys d := by
  induction d with
  | nil => simp [dmem_nil, dkeys]
  | cons p rest ih =>
    rw [dmem_cons, dkeys_cons]
    by_cases h : p.1 = k
    · simp [h]
    · simp only [List.mem_cons]
      constructor
      · intro hb
        rcases Bool.or_eq_true_iff.mp hb with hb | hb
        · exact absurd (by simpa using hb) h
        · exact Or.inr (ih.mp hb)
      · rintro (he | he)
        · exact absurd he.symm h
        · exact Bool.or_eq_true_iff.mpr (Or.inr (ih.mpr he))

theorem dlookup_isSome (d : Dict) (k : String) :
    (dlookup d k).isSome = dmem d k := by
  simp [dlookup, dmem]

theorem dlookup_eq_none_iff (d : Dict) (k : String) :
    dlookup d k = none ↔ ¬ k ∈ dkeys d := by
  rw [← dmem_iff_mem_dkeys, ← dlookup_isSome]
  cases dlookup d k <;> simp

theorem dlookup_mem (d : Dict) (k : String) (v : String)
    (h : dlookup d k = some v) : (k, v) ∈ d := by
  induction d with
  | nil => simp [dlookup_nil] at h
  | cons p rest ih =>
    rw [dlookup_cons] at h
    by_cases hp : p.1 = k
    · rw [if_pos hp] at h
      rcases p with ⟨pk, pv⟩
      simp only at hp
      injection h with hv
      subst hp
      subst hv
      exact List.mem_cons_self _ _
    · rw [if_neg hp] at h
      exact List.mem_cons.mpr (Or.inr (ih h))

/-- In a dict with no duplicate keys, every entry is found by lookup. -/
theorem dlookup_of_mem_of_nodup (d : Dict) (k : String) (v : String)
    (hnd : (dkeys d).Nodup) (h : (k, v) ∈ d) : dlookup d k = some v := by
  induction d with
  | nil => cases h
  | cons p rest ih =>
    rw [dkeys_cons, List.nodup_cons] at hnd
    rw [dlookup_cons]
    rcases List.mem_cons.mp h with h1 | h1
    · cases h1; simp
    · have hk : k ∈ dkeys rest := List.mem_map.mpr ⟨(k, v), h1, rfl⟩
      have hne : p.1 ≠ k := fun he => hnd.1 (he ▸ hk)
      rw [if_neg hne]
      exact ih hnd.2 h1

theorem mem_dinsert (d : Dict) (k v : String) (p : String × String)
    (h : p ∈ dinsert d k v) : p ∈ d ∨ p = (k, v) := by
  unfold dinsert at h
  by_cases hm : dmem d k
  · rw [if_pos hm] at h
    rcases List.mem_map.mp h with ⟨q, hq, he⟩
    by_cases hqk : q.1 = k
    · right
      rw [← he]
      simp [hqk]
    · left
      rw [← he]
      simpa [hqk] using hq
  · rw [if_neg hm] at h
    rcases List.mem_append.mp h with h1 | h1
    · exact Or.inl h1
    · right; simpa using h1

theorem mem_dupdate (d e : Dict) (p : String × String)
    (h : p ∈ dupdate d e) : p ∈ d ∨ p ∈ e := by
  induction e generalizing d with
  | nil => exact Or.inl h
  | cons q rest ih =>
    have h' : p ∈ dupdate (dinsert d q.1 q.2) rest := h
    rcases ih (dinsert d q.1 q.2) h' with h1 | h1
    · rcases mem_dinsert d q.1 q.2 p h1 with h2 | h2
      · exact Or.inl h2
      · right
        rw [h2]
        exact List.mem_cons.mpr (Or.inl rfl)
    · exact Or.inr (List.mem_cons.mpr (Or.inr h1))

theorem dkeys_dinsert_mem (d : Dict) (k v : String) (a : String) :
    a ∈ dkeys (dinsert d k v) ↔ a ∈ dkeys d ∨ a = k := by
  unfold dinsert
  by_cases hm : dmem d k
  · rw [if_pos hm]
    unfold dkeys
    rw [List.map_map]
    constructor
    · intro h
      rcases List.mem_map.mp h with ⟨q, hq, he⟩
      by_cases hqk : q.1 = k
      · right
        rw [← he]
        simp [Function.comp, hqk]
      · left
        have : ((fun p => p.1) ∘ fun p => if p.1 == k then (p.1, v) else p) q = q.1 := by
          simp [Function.comp, hqk]
        rw [this] at he
        exact List.mem_map.mpr ⟨q, hq, he⟩
    · intro h
      rcases h with h | h
      · rcases List.mem_map.mp h with ⟨q, hq, he⟩
        apply List.mem_map.mpr
        refine ⟨q, hq, ?_⟩
        by_cases hqk : q.1 = k
        · simpa [Function.comp, hqk] using he
        · simpa [Function.comp, hqk] using he
      · subst h
        have ha : a ∈ dkeys d := (dmem_iff_mem_dkeys d a).mp hm
        rcases List.mem_map.mp ha with ⟨q, hq, he⟩
        apply List.mem_map.mpr
        refine ⟨q, hq, ?_⟩
        simp [Function.comp, he]
  · rw [if_neg hm]
    unfold dkeys
    rw [List.map_append]
    simp

theorem dkeys_dupdate_mem (d e : Dict) (a : String) :
    a ∈ dkeys (dupdate d e) ↔ a ∈ dkeys d ∨ a ∈ dkeys e := by
  induction e generalizing d with
  | nil => simp [dupdate, dkeys]
  | cons q rest ih =>
    have hstep : dupdate d (q :: rest) = dupdate (dinsert d q.1 q.2) rest := rfl
    rw [hstep, ih, dkeys_dinsert_mem, dkeys_cons]
    simp only [List.mem_cons]
    tauto

theorem dkeys_dupdate_supset (d e : Dict) (a : String)
    (h : a ∈ dkeys d) : a ∈ dkeys (dupdate d e) :=
  (dkeys_dupdate_mem d e a).mpr (Or.inl h)

theorem dmem_dupdate_left (d e : Dict) (a : String)
    (h : dmem d a = true) : dmem (dupdate d e) a = true := by
  rw [dmem_iff_mem_dkeys] at h ⊢
  exact dkeys_dupdate_supset d e a h

theorem dmem_dupdate_right (d e : Dict) (a : String)
    (h : a ∈ dkeys e) : dmem (dupdate d e) a = true := by
  rw [dmem_iff_mem_dkeys]
  exact (dkeys_dupdate_mem d e a).mpr (Or.inr h)

theorem dkeys_dinsert_supset (d : Dict) (k v : String) (a : String)
    (h : a ∈ dkeys d) : a ∈ dkeys (dinsert d k v) :=
  (dkeys_dinsert_mem d k v a).mpr (Or.inl h)

/-! ## Generic list helpers -/
theorem find?_fst_isSome {β : Type} (l : List (String × β)) (v : String) :
    (l.find? (fun p => p.1 == v)).isSome = true ↔ v ∈ l.map (fun p => p.1) := by
  induction l with
  | nil => simp
  | cons p rest ih =>
    by_cases h : p.1 = v
    · simp [List.find?_cons_of_pos, h]
    · rw [List.find?_cons_of_neg _ (by simpa using h)]
      simp only [List.map_cons, List.mem_cons]
      rw [ih]
      constructor
      · exact Or.inr
      · rintro (he | he)
        · exact absurd he.symm h
        · exact he

theorem head?_filter {α : Type} (p : α → Bool) (l : List α) :
    (l.filter p).head? = l.find? p := by
  induction l with
  | nil => rfl
  | cons a rest ih =>
    by_cases h : p a
    · simp [List.filter_cons, h, List.find?_cons_of_pos]
    · simp only [List.filter_cons, h, Bool.false_eq_true, if_false,
        List.find?_cons_of_neg _ (by simpa using h)]
      exact ih

theorem nodup_keys_inj {β : Type} (l : List (String × β))
    (hnd : (l.map (fun p => p.1)).Nodup) (p q : String × β)
    (hp : p ∈ l) (hq : q ∈ l) (h : p.1 = q.1) : p = q := by
  induction l with
  | nil => cases hp
  | cons a rest ih =>
    rw [List.map_cons, List.nodup_cons] at hnd
    rcases List.mem_cons.mp hp with hp1 | hp1 <;>
      rcases List.mem_cons.mp hq with hq1 | hq1
    · rw [hp1, hq1]
    · exfalso
      apply hnd.1
      rw [hp1] at h
      rw [h]
      exact List.mem_map.mpr ⟨q, hq1, rfl⟩
    · exfalso
      apply hnd.1
      rw [hq1] at h
      rw [← h]
      exact List.mem_map.mpr ⟨p, hp1, rfl⟩
    · exact ih hnd.2 hp1 hq1

theorem foldl_flatMap {α β γ : Type} (f : β → α → β) (g : γ → List α) :
    ∀ (l : List γ) (b : β),
    (l.flatMap g).foldl f b = l.foldl (fun m q => (g q).foldl f m) b := by
  intro l
  induction l with
  | nil => intro b; rfl
  | cons q rest ih =>
    intro b
    rw [List.flatMap_cons, List.foldl_append, List.foldl_cons, ih]

theorem dinsert_fresh (d : Dict) (k v : String) (h : ¬ k ∈ dkeys d) :
    dinsert d k v = d ++ [(k, v)] := by
  unfold dinsert
  rw [if_neg]
  intro hm
  exact h ((dmem_iff_mem_dkeys d k).mp hm)

theorem foldl_dinsert_fresh :
    ∀ (ins : List (String × String)) (acc : Dict),
    (∀ p ∈ ins, ¬ p.1 ∈ dkeys acc) → (ins.map (fun p => p.1)).Nodup →
    ins.foldl (fun a p => dinsert a p.1 p.2) acc = acc ++ ins := by
  intro ins
  induction ins with
  | nil => intro acc _ _; simp
  | cons p rest ih =>
    intro acc hfresh hnd
    rw [List.map_cons, List.nodup_cons] at hnd
    rw [List.foldl_cons, dinsert_fresh acc p.1 p.2 (hfresh p (List.mem_cons_self _ _)),
      ih (acc ++ [(p.1, p.2)])]
    · simp
    · intro q hq
      unfold dkeys
      rw [List.map_append, List.mem_append]
      rintro (h1 | h1)
      · exact hfresh q (List.mem_cons_of_mem _ hq) h1
      · apply hnd.1
        have : q.1 = p.1 := by simpa using h1
        rw [← this]
        exact List.mem_map.mpr ⟨q, hq, rfl⟩
    · exact hnd.2

namespace App13

/-! ## Characterization of `deduplicate_content` -/
/-- Invariant of the grouping loop: each accumulated group `(v, ks)` lists,
in encounter order, exactly the keys of the processed prefix carrying text
`v`; group texts are distinct; and the groups cover exactly the texts of
the processed prefix. -/
theorem ctk_go_spec :
    ∀ (rest : List (String × String)) (acc : List (String × List String))
      (pre : List (String × String)),
    (∀ q ∈ acc, q.2 = (pre.filter (fun p => p.2 == q.1)).map (fun p => p.1)) →
    (acc.map (fun q => q.1)).Nodup →
    (∀ v, v ∈ acc.map (fun q => q.1) ↔ ∃ k, (k, v) ∈ pre) →
    (∀ q ∈ ctk_go acc rest,
        q.2 = ((pre ++ rest).filter (fun p => p.2 == q.1)).map (fun p => p.1))
    ∧ ((ctk_go acc rest).map (fun q => q.1)).Nodup
    ∧ (∀ v, v ∈ (ctk_go acc rest).map (fun q => q.1) ↔ ∃ k, (k, v) ∈ pre ++ rest)
  | [], acc, pre, ha, hb, hc => by
    refine ⟨?_, ?_, ?_⟩
    · intro q hq
      simpa using ha q hq
    · exact hb
    · intro v
      rw [List.append_nil]
      exact hc v
  | (k, v) :: rest, acc, pre, ha, hb, hc => by
    by_cases hf : v ∈ acc.map (fun q => q.1)
    · have hfind : (acc.find? (fun p => p.1 == v)).isSome = true :=
        (find?_fst_isSome acc v).mpr hf
      have hstep : ctk_go acc ((k, v) :: rest) =
          ctk_go (acc.map (fun p => if p.1 == v then (p.1, p.2 ++ [k]) else p)) rest := by
        simp [ctk_go, hfind]
      set acc' := acc.map (fun p => if p.1 == v then (p.1, p.2 ++ [k]) else p) with hacc'
      have hkeys : acc'.map (fun q => q.1) = acc.map (fun q => q.1) := by
        rw [hacc', List.map_map]
        apply List.map_congr_left
        intro q _
        by_cases hqv : q.1 = v <;> simp [Function.comp, hqv]
      have ha' : ∀ q ∈ acc',
          q.2 = ((pre ++ [(k, v)]).filter (fun p => p.2 == q.1)).map (fun p => p.1) := by
        intro q' hq'
        rcases List.mem_map.mp hq' with ⟨q, hq, he⟩
        by_cases hqv : q.1 = v
        · have he2 : q' = (q.1, q.2 ++ [k]) := by
            rw [← he]
            simp [hqv]
          rw [he2]
          show q.2 ++ [k] = ((pre ++ [(k, v)]).filter (fun p => p.2 == q.1)).map (fun p => p.1)
          rw [List.filter_append]
          have hfl : (([(k, v)] : List (String × String)).filter (fun p => p.2 == q.1))
              = [(k, v)] := by simp [hqv]
          rw [hfl, List.map_append, ← ha q hq]
          rfl
        · have he2 : q' = q := by
            rw [← he]
            simp [hqv]
          rw [he2, List.filter_append]
          have hfl : (([(k, v)] : List (String × String)).filter (fun p => p.2 == q.1))
              = [] := by
            simp only [List.filter_cons, List.filter_nil]
            rw [if_neg]
            simp
            intro hvq
            exact hqv hvq.symm
          rw [hfl, List.append_nil]
          exact ha q hq
      have hb' : (acc'.map (fun q => q.1)).Nodup := by
        rw [hkeys]
        exact hb
      have hc' : ∀ w, w ∈ acc'.map (fun q => q.1) ↔ ∃ k', (k', w) ∈ pre ++ [(k, v)] := by
        intro w
        rw [hkeys]
        constructor
        · intro hmem
          rcases (hc w).mp hmem with ⟨k', hk'⟩
          exact ⟨k', List.mem_append.mpr (Or.inl hk')⟩
        · rintro ⟨k', hk'⟩
          rcases List.mem_append.mp hk' with h1 | h1
          · exact (hc w).mpr ⟨k', h1⟩
          · have hkw : k' = k ∧ w = v := by simpa using h1
            rw [hkw.2]
            exact hf
      have hrec := ctk_go_spec rest acc' (pre ++ [(k, v)]) ha' hb' hc'
      rw [hstep]
      have hassoc : pre ++ [(k, v)] ++ rest = pre ++ ((k, v) :: rest) := by simp
      rw [hassoc] at hrec
      exact hrec
    · have hfind : (acc.find? (fun p => p.1 == v)).isSome = false := by
        rw [Bool.eq_false_iff]
        intro hcontra
        exact hf ((find?_fst_isSome acc v).mp hcontra)
      have hstep : ctk_go acc ((k, v) :: rest) =
          ctk_go (acc ++ [(v, [k])]) rest := by
        simp [ctk_go, hfind]
      set acc' := acc ++ [(v, [k])] with hacc'
      have ha' : ∀ q ∈ acc',
          q.2 = ((pre ++ [(k, v)]).filter (fun p => p.2 == q.1)).map (fun p => p.1) := by
        intro q hq
        rcases List.mem_append.mp hq with hq1 | hq1
        · have hqv : q.1 ≠ v := by
            intro he
            exact hf (he ▸ List.mem_map.mpr ⟨q, hq1, rfl⟩)
          rw [List.filter_append]
          have hfl : (([(k, v)] : List (String × String)).filter (fun p => p.2 == q.1))
              = [] := by
            simp only [List.filter_cons, List.filter_nil]
            rw [if_neg]
            simp
            intro hvq
            exact hqv hvq.symm
          rw [hfl, List.append_nil]
          exact ha q hq1
        · have hq2 : q = (v, [k]) := by simpa using hq1
          rw [hq2]
          show [k] = ((pre ++ [(k, v)]).filter (fun p => p.2 == v)).map (fun p => p.1)
          rw [List.filter_append]
          have hprenil : pre.filter (fun p => p.2 == v) = [] := by
            rw [List.filter_eq_nil_iff]
            intro p hp
            simp only [beq_iff_eq]
            intro hpv
            exact hf ((hc v).mpr ⟨p.1, by rw [← hpv]; exact hp⟩)
          rw [hprenil]
          simp
      have hb' : (acc'.map (fun q => q.1)).Nodup := by
        rw [hacc', List.map_append]
        simp only [List.map_cons, List.map_nil]
        rw [List.nodup_append]
        refine ⟨hb, List.nodup_singleton v, ?_⟩
        intro w hw hw'
        have : w = v := by simpa using hw'
        exact hf (this ▸ hw)
      have hc' : ∀ w, w ∈ acc'.map (fun q => q.1) ↔ ∃ k', (k', w) ∈ pre ++ [(k, v)] := by
        intro w
        rw [hacc', List.map_append]
        constructor
        · intro h1
          rcases List.mem_append.mp h1 with h2 | h2
          · rcases (hc w).mp h2 with ⟨k', hk'⟩
            exact ⟨k', List.mem_append.mpr (Or.inl hk')⟩
          · have hw : w = v := by simpa using h2
            refine ⟨k, List.mem_append.mpr (Or.inr ?_)⟩
            rw [hw]
            simp
        · rintro ⟨k', hk'⟩
          rcases List.mem_append.mp hk' with h1 | h1
          · exact List.mem_append.mpr (Or.inl ((hc w).mpr ⟨k', h1⟩))
          · have hkw : k' = k ∧ w = v := by simpa using h1
            refine List.mem_append.mpr (Or.inr ?_)
            rw [hkw.2]
            simp
      have hrec := ctk_go_spec rest acc' (pre ++ [(k, v)]) ha' hb' hc'
      rw [hstep]
      have hassoc : pre ++ [(k, v)] ++ rest = pre ++ ((k, v) :: rest) := by simp
      rw [hassoc] at hrec
      exact hrec

/-- Each group of `content_to_keys` lists exactly the keys of the input
carrying its text, in input order. -/
theorem content_to_keys_groups (input : Dict) :
    ∀ q ∈ content_to_keys input,
      q.2 = (input.filter (fun p => p.2 == q.1)).map (fun p => p.1) := by
  have h := ctk_go_spec input [] [] (by intro q hq; cases hq) (by simp) (by simp)
  intro q hq
  simpa using h.1 q hq

/-- Group texts are pairwise distinct. -/
theorem content_to_keys_nodup (input : Dict) :
    ((content_to_keys input).map (fun q => q.1)).Nodup := by
  have h := ctk_go_spec input [] [] (by intro q hq; cases hq) (by simp) (by simp)
  exact h.2.1

/-- The group texts are exactly the texts occurring in the input. -/
theorem content_to_keys_values (input : Dict) (v : String) :
    v ∈ (content_to_keys input).map (fun q => q.1) ↔ ∃ k, (k, v) ∈ input := by
  have h := ctk_go_spec input [] [] (by intro q hq; cases hq) (by simp) (by simp)
  simpa using h.2.2 v

theorem headD_mem_of_ne_nil {α : Type} (l : List α) (d : α) (h : l ≠ []) :
    l.headD d ∈ l := by
  cases l with
  | nil => exact absurd rfl h
  | cons a rest => exact List.mem_cons_self _ _

theorem content_to_keys_group_ne_nil (input : Dict) (q : String × List String)
    (hq : q ∈ content_to_keys input) : q.2 ≠ [] := by
  have hval : q.1 ∈ (content_to_keys input).map (fun p => p.1) :=
    List.mem_map.mpr ⟨q, hq, rfl⟩
  rcases (content_to_keys_values input q.1).mp hval with ⟨k, hk⟩
  have hmem : (k, q.1) ∈ input.filter (fun p => p.2 == q.1) :=
    List.mem_filter.mpr ⟨hk, by simp⟩
  rw [content_to_keys_groups input q hq]
  intro hnil
  rw [List.map_eq_nil_iff.mp hnil] at hmem
  cases hmem

/-- A member of a group is a key of the input carrying the group's text. -/
theorem mem_group_mem_input (input : Dict) (q : String × List String)
    (hq : q ∈ content_to_keys input) (k : String) (hk : k ∈ q.2) :
    (k, q.1) ∈ input := by
  rw [content_to_keys_groups input q hq] at hk
  rcases List.mem_map.mp hk with ⟨pr, hpr, he⟩
  have hf := List.mem_filter.mp hpr
  rcases pr with ⟨a, b⟩
  have hb : b = q.1 := by simpa using hf.2
  have ha : a = k := he
  rw [← ha, ← hb]
  exact hf.1

theorem group_keys_nodup (input : Dict) (hnd : (dkeys input).Nodup)
    (q : String × List String) (hq : q ∈ content_to_keys input) : q.2.Nodup := by
  rw [content_to_keys_groups input q hq]
  have hsub : ((input.filter (fun p => p.2 == q.1)).map (fun p => p.1)).Sublist
      (input.map (fun p => p.1)) :=
    List.Sublist.map _ (List.filter_sublist input)
  exact hsub.nodup hnd

theorem group_keys_disjoint (input : Dict) (hnd : (dkeys input).Nodup)
    (q1 q2 : String × List String) (h1 : q1 ∈ content_to_keys input)
    (h2 : q2 ∈ content_to_keys input) (hne : q1.1 ≠ q2.1) :
    List.Disjoint q1.2 q2.2 := by
  intro k hk1 hk2
  have hin1 := mem_group_mem_input input q1 h1 k hk1
  have hin2 := mem_group_mem_input input q2 h2 k hk2
  have heq : ((k, q1.1) : String × String) = (k, q2.1) :=
    nodup_keys_inj input hnd _ _ hin1 hin2 rfl
  exact hne (congrArg Prod.snd heq)

theorem groups_flatten_nodup (input : Dict) (hnd : (dkeys input).Nodup) :
    (((content_to_keys input).map (fun q => q.2)).flatten).Nodup := by
  rw [List.nodup_flatten]
  constructor
  · intro l hl
    rcases List.mem_map.mp hl with ⟨q, hq, he⟩
    rw [← he]
    exact group_keys_nodup input hnd q hq
  · rw [List.pairwise_map]
    have hpw : (content_to_keys input).Pairwise (fun a b => a.1 ≠ b.1) :=
      List.pairwise_map.mp (content_to_keys_nodup input)
    exact hpw.imp_of_mem
      (fun ha hb hne => group_keys_disjoint input hnd _ _ ha hb hne)

theorem reps_nodup (input : Dict) (hnd : (dkeys input).Nodup) :
    ((content_to_keys input).map (fun q => q.2.headD "")).Nodup := by
  have hpw : (content_to_keys input).Pairwise (fun a b => a.1 ≠ b.1) :=
    List.pairwise_map.mp (content_to_keys_nodup input)
  have hpw2 : (content_to_keys input).Pairwise
      (fun a b => a.2.headD "" ≠ b.2.headD "") := by
    apply hpw.imp_of_mem
    intro a b ha hb hne heq
    have hma : a.2.headD "" ∈ a.2 :=
      headD_mem_of_ne_nil a.2 "" (content_to_keys_group_ne_nil input a ha)
    have hmb : b.2.headD "" ∈ b.2 :=
      headD_mem_of_ne_nil b.2 "" (content_to_keys_group_ne_nil input b hb)
    exact group_keys_disjoint input hnd a b ha hb hne hma (heq ▸ hmb)
  exact List.pairwise_map.mpr hpw2

/-- The representative-to-text dict built by `deduplicate_content`, as a
plain list: one entry per group. -/
theorem unique_content_eq (input : Dict) (hnd : (dkeys input).Nodup) :
    (deduplicate_content input).1 =
      (content_to_keys input).map (fun q => (q.2.headD "", q.1)) := by
  show (content_to_keys input).foldl (fun u p => dinsert u (p.2.headD "") p.1) []
      = _
  have hm := List.foldl_map (fun q : String × List String => (q.2.headD "", q.1))
    (fun (a : Dict) (p : String × String) => dinsert a p.1 p.2)
    (content_to_keys input) []
  rw [← hm]
  rw [foldl_dinsert_fresh]
  · simp
  · intro p _
    simp [dkeys]
  · rw [List.map_map]
    have : ((fun p : String × String => p.1) ∘
        fun q : String × List String => (q.2.headD "", q.1)) =
        fun q : String × List String => q.2.headD "" := rfl
    rw [this]
    exact reps_nodup input hnd

theorem dmSpec_keys (input : Dict) :
    dkeys (dmSpec input) = ((content_to_keys input).map (fun q => q.2)).flatten := by
  unfold dmSpec dkeys
  rw [List.map_flatMap, ← List.flatMap_def]
  congr 1
  funext q
  rw [List.map_map]
  have : ((fun p : String × String => p.1) ∘ fun k => (k, q.2.headD "")) = id := rfl
  rw [this, List.map_id]

theorem dmSpec_keys_nodup (input : Dict) (hnd : (dkeys input).Nodup) :
    (dkeys (dmSpec input)).Nodup := by
  rw [dmSpec_keys]
  exact groups_flatten_nodup input hnd

theorem duplicates_map_eq (input : Dict) (hnd : (dkeys input).Nodup) :
    (deduplicate_content input).2 = dmSpec input := by
  show (content_to_keys input).foldl
      (fun m p => p.2.foldl (fun m' k => dinsert m' k (p.2.headD "")) m) [] = _
  have hstep : (fun (m : Dict) (q : String × List String) =>
      (q.2.map (fun k => (k, q.2.headD ""))).foldl
        (fun a p => dinsert a p.1 p.2) m)
      = fun m q => q.2.foldl (fun m' k => dinsert m' k (q.2.headD "")) m := by
    funext m q
    rw [List.foldl_map]
  rw [← hstep, ← foldl_flatMap]
  have hfresh : ∀ p ∈ (content_to_keys input).flatMap
      (fun q => q.2.map (fun k => (k, q.2.headD ""))), ¬ p.1 ∈ dkeys ([] : Dict) := by
    intro p _
    simp [dkeys]
  have hnd2 : (((content_to_keys input).flatMap
      (fun q => q.2.map (fun k => (k, q.2.headD "")))).map (fun p => p.1)).Nodup := by
    have := dmSpec_keys_nodup input hnd
    rw [dmSpec_keys] at this
    have hk := dmSpec_keys input
    unfold dmSpec dkeys at hk
    rw [hk]
    exact this
  rw [foldl_dinsert_fresh _ _ hfresh hnd2]
  simp [dmSpec]

theorem filter_head_find (l : Dict) (p : String × String → Bool)
    (h : l.filter p ≠ []) :
    some (((l.filter p).map (fun q => q.1)).headD "") =
      (l.find? p).map (fun q => q.1) := by
  cases hf : l.filter p with
  | nil => exact absurd hf h
  | cons a rest =>
    have hfind : l.find? p = some a := by
      rw [← head?_filter, hf]
      rfl
    rw [hfind]
    rfl

/-- The duplicate map sends every key to the first-encountered key carrying
the same text. -/
theorem dlookup_duplicates_map (input : Dict) (hnd : (dkeys input).Nodup)
    (k v : String) (hkv : (k, v) ∈ input) :
    dlookup (deduplicate_content input).2 k = firstKeyWith input v := by
  rcases List.mem_map.mp ((content_to_keys_values input v).mpr ⟨k, hkv⟩)
    with ⟨q, hqG, hqv⟩
  have hgrp := content_to_keys_groups input q hqG
  have hkq : k ∈ q.2 := by
    rw [hgrp, hqv]
    exact List.mem_map.mpr ⟨(k, v), List.mem_filter.mpr ⟨hkv, by simp⟩, rfl⟩
  have hmem : (k, q.2.headD "") ∈ dmSpec input := by
    unfold dmSpec
    rw [List.mem_flatMap]
    exact ⟨q, hqG, List.mem_map.mpr ⟨k, hkq, rfl⟩⟩
  have hlook : dlookup (dmSpec input) k = some (q.2.headD "") :=
    dlookup_of_mem_of_nodup _ _ _ (dmSpec_keys_nodup input hnd) hmem
  rw [duplicates_map_eq input hnd, hlook]
  have hne : input.filter (fun p => p.2 == v) ≠ [] := by
    intro hnil
    have : (k, v) ∈ input.filter (fun p => p.2 == v) :=
      List.mem_filter.mpr ⟨hkv, by simp⟩
    rw [hnil] at this
    cases this
  have := filter_head_find input (fun p => p.2 == v) hne
  unfold firstKeyWith
  rw [← this, hgrp, hqv]

theorem firstKeyWith_spec (input : Dict) (v r : String)
    (h : firstKeyWith input v = some r) : (r, v) ∈ input := by
  unfold firstKeyWith at h
  cases hf : input.find? (fun p => p.2 == v) with
  | none => rw [hf] at h; cases h
  | some p0 =>
    rw [hf] at h
    have hr : p0.1 = r := by simpa using h
    have hp0 := List.find?_some hf
    have hm := List.mem_of_find?_eq_some hf
    have hv : p0.2 = v := by simpa using hp0
    rw [← hr, ← hv]
    simpa using hm

theorem dlookup_firstKeyWith (input : Dict) (hnd : (dkeys input).Nodup)
    (v r : String) (h : firstKeyWith input v = some r) :
    dlookup input r = some v :=
  dlookup_of_mem_of_nodup input r v hnd (firstKeyWith_spec input v r h)

/-- Every representative maps to itself in the duplicate map. -/
theorem rep_maps_to_self (input : Dict) (hnd : (dkeys input).Nodup)
    (v r : String) (h : firstKeyWith input v = some r) :
    dlookup (deduplicate_content input).2 r = some r := by
  rw [dlookup_duplicates_map input hnd r v (firstKeyWith_spec input v r h)]
  exact h

/-- The first key of each group is the first-encountered key with the
group's text. -/
theorem group_rep_eq (input : Dict) (q : String × List String)
    (hq : q ∈ content_to_keys input) :
    firstKeyWith input q.1 = some (q.2.headD "") := by
  have hgrp := content_to_keys_groups input q hq
  have hne : input.filter (fun p => p.2 == q.1) ≠ [] := by
    intro hnil
    apply content_to_keys_group_ne_nil input q hq
    rw [hgrp, hnil]
    rfl
  have := filter_head_find input (fun p => p.2 == q.1) hne
  unfold firstKeyWith
  rw [← this, hgrp]

theorem dkeys_unique_eq (input : Dict) (hnd : (dkeys input).Nodup) :
    dkeys (deduplicate_content input).1 =
      (content_to_keys input).map (fun q => q.2.headD "") := by
  rw [unique_content_eq input hnd]
  unfold dkeys
  rw [List.map_map]
  rfl

theorem dkeys_unique_nodup (input : Dict) (hnd : (dkeys input).Nodup) :
    (dkeys (deduplicate_content input).1).Nodup := by
  rw [dkeys_unique_eq input hnd]
  exact reps_nodup input hnd

/-- Every entry of the unique dict is an entry of the input (up to lookup). -/
theorem unique_entries_lookup (input : Dict) (hnd : (dkeys input).Nodup) :
    ∀ p ∈ (deduplicate_content input).1, dlookup input p.1 = some p.2 := by
  intro p hp
  rw [unique_content_eq input hnd] at hp
  rcases List.mem_map.mp hp with ⟨q, hq, he⟩
  have hmem : q.2.headD "" ∈ q.2 :=
    headD_mem_of_ne_nil q.2 "" (content_to_keys_group_ne_nil input q hq)
  have := mem_group_mem_input input q hq _ hmem
  rw [← he]
  exact dlookup_of_mem_of_nodup input _ _ hnd this

/-- Every entry of the duplicate map relates two keys carrying the same
text. -/
theorem duplicates_entries_texts (input : Dict) (hnd : (dkeys input).Nodup) :
    ∀ p ∈ (deduplicate_content input).2,
      ∃ t, dlookup input p.1 = some t ∧ dlookup input p.2 = some t := by
  intro p hp
  rw [duplicates_map_eq input hnd] at hp
  unfold dmSpec at hp
  rcases List.mem_flatMap.mp hp with ⟨q, hq, hpq⟩
  rcases List.mem_map.mp hpq with ⟨k, hk, he⟩
  have h1 : (k, q.1) ∈ input := mem_group_mem_input input q hq k hk
  have hhd : q.2.headD "" ∈ q.2 :=
    headD_mem_of_ne_nil q.2 "" (content_to_keys_group_ne_nil input q hq)
  have h2 : (q.2.headD "", q.1) ∈ input := mem_group_mem_input input q hq _ hhd
  refine ⟨q.1, ?_, ?_⟩
  · rw [← he]
    exact dlookup_of_mem_of_nodup input _ _ hnd h1
  · rw [← he]
    exact dlookup_of_mem_of_nodup input _ _ hnd h2

/-- The duplicate map is total on the input keys. -/
theorem dm_total (input : Dict) (hnd : (dkeys input).Nodup)
    (k : String) (hk : k ∈ dkeys input) :
    ∃ r, dlookup (deduplicate_content input).2 k = some r ∧
      r ∈ dkeys (deduplicate_content input).1 ∧
      dlookup input r = dlookup input k := by
  rcases List.mem_map.mp hk with ⟨p, hp, he⟩
  rcases p with ⟨a, v⟩
  have ha : a = k := he
  rw [ha] at hp
  rcases List.mem_map.mp ((content_to_keys_values input v).mpr ⟨k, hp⟩)
    with ⟨q, hqG, hqv⟩
  refine ⟨q.2.headD "", ?_, ?_, ?_⟩
  · rw [dlookup_duplicates_map input hnd k v hp, ← hqv]
    exact group_rep_eq input q hqG
  · rw [dkeys_unique_eq input hnd]
    exact List.mem_map.mpr ⟨q, hqG, rfl⟩
  · have hrep := group_rep_eq input q hqG
    rw [hqv] at hrep
    rw [dlookup_firstKeyWith input hnd v _ hrep,
      dlookup_of_mem_of_nodup input k v hnd hp]

/-- The keys of the duplicate map are exactly the input keys. -/
theorem dm_keys_iff (input : Dict) (hnd : (dkeys input).Nodup) (k : String) :
    k ∈ dkeys (deduplicate_content input).2 ↔ k ∈ dkeys input := by
  constructor
  · intro h
    rw [duplicates_map_eq input hnd, dmSpec_keys] at h
    rcases List.mem_flatten.mp h with ⟨l, hl, hkl⟩
    rcases List.mem_map.mp hl with ⟨q, hq, he⟩
    rw [← he] at hkl
    have := mem_group_mem_input input q hq k hkl
    exact List.mem_map.mpr ⟨(k, q.1), this, rfl⟩
  · intro h
    rcases dm_total input hnd k h with ⟨r, hr, _, _⟩
    rw [← dmem_iff_mem_dkeys, ← dlookup_isSome, hr]
    rfl

/-- The unique keys are exactly the representatives. -/
theorem unique_keys_iff (input : Dict) (hnd : (dkeys input).Nodup)
    (r : String) :
    r ∈ dkeys (deduplicate_content input).1 ↔
      ∃ k, dlookup (deduplicate_content input).2 k = some r := by
  constructor
  · intro h
    rw [dkeys_unique_eq input hnd] at h
    rcases List.mem_map.mp h with ⟨q, hq, he⟩
    have hhd : q.2.headD "" ∈ q.2 :=
      headD_mem_of_ne_nil q.2 "" (content_to_keys_group_ne_nil input q hq)
    have hin : (q.2.headD "", q.1) ∈ input := mem_group_mem_input input q hq _ hhd
    refine ⟨q.2.headD "", ?_⟩
    rw [dlookup_duplicates_map input hnd _ _ hin, group_rep_eq input q hq, he]
  · rintro ⟨k, hk⟩
    have hmem := dlookup_mem _ _ _ hk
    rw [duplicates_map_eq input hnd] at hmem
    unfold dmSpec at hmem
    rcases List.mem_flatMap.mp hmem with ⟨q, hq, hpq⟩
    rcases List.mem_map.mp hpq with ⟨k', _, he⟩
    have : r = q.2.headD "" := by
      have := congrArg Prod.snd he
      simpa using this.symm
    rw [dkeys_unique_eq input hnd, this]
    exact List.mem_map.mpr ⟨q, hq, rfl⟩

theorem batch_cost_append (b : Dict) (k v : String) :
    batch_cost (b ++ [(k, v)]) = batch_cost b + item_tokens k v := by
  unfold batch_cost
  rw [List.map_append, List.sum_append]
  rfl

/-- The batching loop never loses, duplicates or reorders items: its
output concatenates back to the current batch followed by the remaining
items (as long as the keys in play are distinct, so that dict assignment
is a plain append). -/
theorem split_go_flatten (mx pr : Nat) :
    ∀ (items : List (String × String)) (cur : Dict) (cnt : Nat),
    (dkeys cur ++ items.map (fun p => p.1)).Nodup →
    (split_go mx pr items cur cnt).flatten = cur ++ items
  | [], cur, cnt, _ => by
    unfold split_go
    cases hc : cur with
    | nil => simp
    | cons a rest => simp
  | (k, v) :: rest, cur, cnt, hnd => by
    have hksplit : (dkeys cur ++ ((k, v) :: rest).map (fun p => p.1))
        = dkeys cur ++ k :: rest.map (fun p => p.1) := rfl
    rw [hksplit] at hnd
    have hkfresh : ¬ k ∈ dkeys cur := by
      intro hk
      exact (List.nodup_append.mp hnd).2.2 hk (List.mem_cons_self _ _)
    have htl : (k :: rest.map (fun p => p.1)).Nodup :=
      (List.nodup_append.mp hnd).2.1
    unfold split_go
    by_cases hcl : cnt + item_tokens k v > mx ∧ ¬ cur.isEmpty
    · rw [if_pos hcl]
      have hins : dinsert [] k v = [(k, v)] := by
        rw [dinsert_fresh]
        · rfl
        · simp [dkeys]
      have hrec := split_go_flatten mx pr rest (dinsert [] k v) (pr + item_tokens k v)
        (by rw [hins]; simpa [dkeys] using htl)
      rw [List.flatten_cons, hrec, hins]
      simp
    · rw [if_neg hcl]
      have hins : dinsert cur k v = cur ++ [(k, v)] := dinsert_fresh cur k v hkfresh
      have hnd' : (dkeys (dinsert cur k v) ++ rest.map (fun p => p.1)).Nodup := by
        rw [hins]
        unfold dkeys
        simp only [List.map_append, List.map_cons, List.map_nil]
        rw [List.append_assoc]
        exact hnd
      rw [split_go_flatten mx pr rest (dinsert cur k v) (cnt + item_tokens k v) hnd',
        hins, List.append_assoc]
      rfl

/-- Every batch that the loop emits is within budget or is a singleton;
the running count always equals `prompt_tokens` plus the current batch
cost. -/
theorem split_go_bound (mx pr : Nat) :
    ∀ (items : List (String × String)) (cur : Dict) (cnt : Nat),
    (dkeys cur ++ items.map (fun p => p.1)).Nodup →
    cnt = pr + batch_cost cur →
    (cur = [] ∨ pr + batch_cost cur ≤ mx ∨ ∃ kv, cur = [kv]) →
    ∀ b ∈ split_go mx pr items cur cnt,
      pr + batch_cost b ≤ mx ∨ ∃ kv, b = [kv]
  | [], cur, cnt, _, _, hinv => by
    unfold split_go
    cases hc : cur with
    | nil => simp
    | cons a rest =>
      intro b hb
      have hbc : b = a :: rest := by simpa using hb
      rw [hbc, ← hc]
      rcases hinv with h | h | h
      · rw [hc] at h; cases h
      · exact Or.inl h
      · exact Or.inr h
  | (k, v) :: rest, cur, cnt, hnd, hcnt, hinv => by
    have hksplit : (dkeys cur ++ ((k, v) :: rest).map (fun p => p.1))
        = dkeys cur ++ k :: rest.map (fun p => p.1) := rfl
    rw [hksplit] at hnd
    have hkfresh : ¬ k ∈ dkeys cur := by
      intro hk
      exact (List.nodup_append.mp hnd).2.2 hk (List.mem_cons_self _ _)
    have htl : (k :: rest.map (fun p => p.1)).Nodup :=
      (List.nodup_append.mp hnd).2.1
    unfold split_go
    by_cases hcl : cnt + item_tokens k v > mx ∧ ¬ cur.isEmpty
    · rw [if_pos hcl]
      intro b hb
      rcases List.mem_cons.mp hb with hb1 | hb1
      · subst hb1
        rcases hinv with h | h | h
        · rw [h] at hcl
          exact absurd rfl hcl.2
        · exact Or.inl h
        · exact Or.inr h
      · have hins : dinsert [] k v = [(k, v)] := by
          rw [dinsert_fresh]
          · rfl
          · simp [dkeys]
        refine split_go_bound mx pr rest (dinsert [] k v) (pr + item_tokens k v)
          ?_ ?_ ?_ b hb1
        · rw [hins]
          simpa [dkeys] using htl
        · rw [hins]
          unfold batch_cost
          simp
        · rw [hins]
          exact Or.inr (Or.inr ⟨(k, v), rfl⟩)
    · rw [if_neg hcl]
      intro b hb
      have hins : dinsert cur k v = cur ++ [(k, v)] := dinsert_fresh cur k v hkfresh
      refine split_go_bound mx pr rest (dinsert cur k v) (cnt + item_tokens k v)
        ?_ ?_ ?_ b hb
      · rw [hins]
        unfold dkeys
        simp only [List.map_append, List.map_cons, List.map_nil]
        rw [List.append_assoc]
        exact hnd
      · rw [hins, batch_cost_append, hcnt, Nat.add_assoc]
      · rcases Decidable.not_and_iff_or_not.mp hcl with h | h
        · have hle : cnt + item_tokens k v ≤ mx := Nat.le_of_not_lt h
          right
          left
          rw [hins, batch_cost_append, ← Nat.add_assoc, ← hcnt]
          exact hle
        · have hce : cur = [] := by
            rcases cur with _ | ⟨a, rest'⟩
            · rfl
            · exact absurd (by simp) h
          rw [hins, hce]
          exact Or.inr (Or.inr ⟨(k, v), rfl⟩)

/-- The sorted item list is a permutation of the input with the same keys. -/
theorem sortItems_perm (input : Dict) : (sortItems input).Perm input :=
  List.perm_insertionSort _ input

theorem sortItems_keys_nodup (input : Dict) (hnd : (dkeys input).Nodup) :
    ((sortItems input).map (fun p => p.1)).Nodup := by
  have hperm : ((sortItems input).map (fun p : String × String => p.1)).Perm
      (input.map (fun p : String × String => p.1)) :=
    (sortItems_perm input).map (fun p : String × String => p.1)
  exact hperm.nodup_iff.mpr hnd

/-- The batches concatenate to a permutation of the input dict. -/
theorem split_batches_flatten (input : Dict) (hnd : (dkeys input).Nodup)
    (mx pr : Nat) :
    (split_dict_into_smart_batches input mx pr).flatten.Perm input := by
  unfold split_dict_into_smart_batches
  rw [split_go_flatten mx pr (sortItems input) [] pr
    (by simpa [dkeys] using sortItems_keys_nodup input hnd)]
  simpa using sortItems_perm input

end App13

/-! ## Reconciliation-loop machinery -/
theorem foldl_erase_self {α : Type} [DecidableEq α] :
    ∀ l : List α, l.foldl (fun acc x => acc.erase x) l = []
  | [] => rfl
  | a :: t => by
    rw [List.foldl_cons, List.erase_cons_head]
    exact foldl_erase_self t

/-- Sub-batch attempts never touch `failed_batches` in app13's
reconciliation (failures just `continue`). -/
theorem reconcile_sub_fold_failed (oracle : App13.Oracle) (fb : App13.FailedBatch) :
    ∀ (l : List (Nat × Dict)) (s : Dict × App13.RecoveryState),
    ((l.foldl (App13.reconcile_sub_step oracle fb) s).2.failed_batches)
      = s.2.failed_batches
  | [], _ => rfl
  | isb :: rest, s => by
    rw [List.foldl_cons, reconcile_sub_fold_failed oracle fb rest]
    simp only [App13.reconcile_sub_step]
    split <;> rfl

theorem reconcile_step_failed (oracle : App13.Oracle) (text_dict : Dict)
    (st : Dict × App13.RecoveryState) (fb : App13.FailedBatch) :
    (App13.reconcile_step oracle text_dict st fb).2.failed_batches
      = st.2.failed_batches.erase fb := by
  simp only [App13.reconcile_step]
  rw [reconcile_sub_fold_failed oracle fb]

theorem reconcileLoop_failed (oracle : App13.Oracle) (text_dict : Dict) :
    ∀ (snapshot : List App13.FailedBatch) (st : Dict × App13.RecoveryState),
    ((snapshot.foldl (App13.reconcile_step oracle text_dict) st).2.failed_batches)
      = snapshot.foldl (fun acc fb => acc.erase fb) st.2.failed_batches
  | [], _ => rfl
  | fb :: rest, st => by
    rw [List.foldl_cons, List.foldl_cons,
      reconcileLoop_failed oracle text_dict rest]
    congr 1
    exact reconcile_step_failed oracle text_dict st fb

/-- A failed batch can never equal one of the sub-batch failure records
its own retry appends: the sub-record's index carries an extra `"."`. -/
theorem fb_ne_sub_entry (fb : BatchRecovery.FailedBatchInfo)
    (t : String) (items : List String) (err : String) (n : Nat) :
    fb ≠ ⟨fb.batch_index ++ "." ++ t, items, err, n⟩ := by
  intro he
  have hidx : fb.batch_index = fb.batch_index ++ "." ++ t :=
    congrArg BatchRecovery.FailedBatchInfo.batch_index he
  have hlen := congrArg String.length hidx
  rw [String.length_append, String.length_append] at hlen
  have hdot : ("." : String).length = 1 := rfl
  omega

/-- Invariant of `retry_failed_batches`' inner loop on one failed batch:
the original entry stays at the head of `failed_batches`, everything
appended after it differs from it, and the success counter counts exactly
the sub-batches whose translation call succeeded. -/
theorem retry_inner_spec (oracle : String → Dict → Except String Dict)
    (fb : BatchRecovery.FailedBatchInfo) (nbs : Nat) :
    ∀ (l : List (Nat × Dict)) (s : BatchRecovery.RecoveryState) (n : Nat)
      (tail : List BatchRecovery.FailedBatchInfo),
    s.failed_batches = fb :: tail → (∀ e ∈ tail, fb ≠ e) →
    ∃ tail2,
      (l.foldl (BatchRecovery.retry_inner_step oracle fb nbs) (s, n)).1.failed_batches
        = fb :: tail2
      ∧ (∀ e ∈ tail2, fb ≠ e)
      ∧ (l.foldl (BatchRecovery.retry_inner_step oracle fb nbs) (s, n)).2
        = n + l.countP (fun isb =>
            (oracle (fb.batch_index ++ "." ++ toString (isb.1 + 1)) isb.2).isOk)
  | [], s, n, tail, hf, ht => ⟨tail, hf, ht, by simp⟩
  | isb :: rest, s, n, tail, hf, ht => by
    rw [List.foldl_cons]
    cases horacle : oracle (fb.batch_index ++ "." ++ toString (isb.1 + 1)) isb.2 with
    | ok r =>
      have hok : (oracle (fb.batch_index ++ "." ++ toString (isb.1 + 1)) isb.2).isOk
          = true := by rw [horacle]; rfl
      have hstep : BatchRecovery.retry_inner_step oracle fb nbs (s, n) isb
          = ({ s with
                translated_items := dupdate (dupdate s.translated_items r) r,
                completed_batches := s.completed_batches ++
                  [fb.batch_index ++ "." ++ toString (isb.1 + 1)] },
              n + 1) := by
        simp [BatchRecovery.retry_inner_step, BatchRecovery.process_batch, horacle]
      rw [hstep]
      rcases retry_inner_spec oracle fb nbs rest
          { s with
            translated_items := dupdate (dupdate s.translated_items r) r,
            completed_batches := s.completed_batches ++
              [fb.batch_index ++ "." ++ toString (isb.1 + 1)] }
          (n + 1) tail hf ht
        with ⟨tail2, h1, h2, h3⟩
      refine ⟨tail2, h1, h2, ?_⟩
      rw [h3, List.countP_cons]
      simp only [hok, if_true]
      omega
    | error e =>
      have hko : (oracle (fb.batch_index ++ "." ++ toString (isb.1 + 1)) isb.2).isOk
          = false := by rw [horacle]; rfl
      have hstep : BatchRecovery.retry_inner_step oracle fb nbs (s, n) isb
          = ({ s with
                failed_batches := s.failed_batches ++
                  [⟨fb.batch_index ++ "." ++ toString (isb.1 + 1),
                    dkeys isb.2, e, nbs⟩] },
              n) := by
        simp [BatchRecovery.retry_inner_step, BatchRecovery.process_batch, horacle]
      rw [hstep]
      have hf' : ({ s with
          failed_batches := s.failed_batches ++
            [⟨fb.batch_index ++ "." ++ toString (isb.1 + 1), dkeys isb.2, e, nbs⟩] } :
            BatchRecovery.RecoveryState).failed_batches
          = fb :: (tail ++
            [⟨fb.batch_index ++ "." ++ toString (isb.1 + 1), dkeys isb.2, e, nbs⟩]) := by
        show s.failed_batches ++ _ = _
        rw [hf]
        rfl
      have ht' : ∀ x ∈ tail ++
          [(⟨fb.batch_index ++ "." ++ toString (isb.1 + 1), dkeys isb.2, e, nbs⟩ :
            BatchRecovery.FailedBatchInfo)], fb ≠ x := by
        intro x hx
        rcases List.mem_append.mp hx with hx1 | hx1
        · exact ht x hx1
        · have hxe : x = ⟨fb.batch_index ++ "." ++ toString (isb.1 + 1),
              dkeys isb.2, e, nbs⟩ := by simpa using hx1
          rw [hxe]
          exact fb_ne_sub_entry fb _ _ _ _
      rcases retry_inner_spec oracle fb nbs rest
          { s with
            failed_batches := s.failed_batches ++
              [⟨fb.batch_index ++ "." ++ toString (isb.1 + 1), dkeys isb.2, e, nbs⟩] }
          n _ hf' ht'
        with ⟨tail2, h1, h2, h3⟩
      refine ⟨tail2, h1, h2, ?_⟩
      rw [h3, List.countP_cons]
      simp only [hko]
      simp

/-! ## Monotonicity machinery -/
theorem foldl_dict_mono {σ γ : Type} (g : σ → Dict) (f : σ → γ → σ)
    (hmono : ∀ s x k, k ∈ dkeys (g s) → k ∈ dkeys (g (f s x))) :
    ∀ (l : List γ) (s : σ) (k : String),
      k ∈ dkeys (g s) → k ∈ dkeys (g (l.foldl f s)) := by
  intro l
  induction l with
  | nil => exact fun s k h => h
  | cons x rest ih => exact fun s k h => ih (f s x) k (hmono s x k h)

theorem translating_step_mono_titems (oracle : App13.Oracle)
    (st : Dict × App13.RecoveryState) (ib : Nat × Dict) (k : String)
    (h : k ∈ dkeys st.2.translated_items) :
    k ∈ dkeys (App13.translating_step oracle st ib).2.translated_items := by
  simp only [App13.translating_step]
  split
  · exact h
  · split
    · exact dkeys_dupdate_supset _ _ k h
    · exact h

theorem translating_step_mono_fst (oracle : App13.Oracle)
    (st : Dict × App13.RecoveryState) (ib : Nat × Dict) (k : String)
    (h : k ∈ dkeys st.1) :
    k ∈ dkeys (App13.translating_step oracle st ib).1 := by
  simp only [App13.translating_step]
  split
  · exact h
  · split
    · exact dkeys_dupdate_supset _ _ k h
    · exact h

theorem reconcile_sub_step_mono_titems (oracle : App13.Oracle)
    (fb : App13.FailedBatch) (s : Dict × App13.RecoveryState)
    (isb : Nat × Dict) (k : String)
    (h : k ∈ dkeys s.2.translated_items) :
    k ∈ dkeys (App13.reconcile_sub_step oracle fb s isb).2.translated_items := by
  simp only [App13.reconcile_sub_step]
  split
  · exact dkeys_dupdate_supset _ _ k h
  · exact h

theorem reconcile_sub_step_mono_fst (oracle : App13.Oracle)
    (fb : App13.FailedBatch) (s : Dict × App13.RecoveryState)
    (isb : Nat × Dict) (k : String) (h : k ∈ dkeys s.1) :
    k ∈ dkeys (App13.reconcile_sub_step oracle fb s isb).1 := by
  simp only [App13.reconcile_sub_step]
  split
  · exact dkeys_dupdate_supset _ _ k h
  · exact h

theorem reconcile_step_mono_titems (oracle : App13.Oracle) (text_dict : Dict)
    (st : Dict × App13.RecoveryState) (fb : App13.FailedBatch) (k : String)
    (h : k ∈ dkeys st.2.translated_items) :
    k ∈ dkeys (App13.reconcile_step oracle text_dict st fb).2.translated_items := by
  simp only [App13.reconcile_step]
  exact foldl_dict_mono (fun s => s.2.translated_items) _
    (fun s x k' h' => reconcile_sub_step_mono_titems oracle fb s x k' h') _ st k h

theorem reconcile_step_mono_fst (oracle : App13.Oracle) (text_dict : Dict)
    (st : Dict × App13.RecoveryState) (fb : App13.FailedBatch) (k : String)
    (h : k ∈ dkeys st.1) :
    k ∈ dkeys (App13.reconcile_step oracle text_dict st fb).1 := by
  simp only [App13.reconcile_step]
  exact foldl_dict_mono (fun s => s.1) _
    (fun s x k' h' => reconcile_sub_step_mono_fst oracle fb s x k' h') _ st k h

theorem finalSweep_mono_titems (oracle : App13.Oracle) (text_dict full : Dict)
    (rs : App13.RecoveryState) (k : String)
    (h : k ∈ dkeys rs.translated_items) :
    k ∈ dkeys (App13.finalSweep oracle text_dict full rs).2.translated_items := by
  simp only [App13.finalSweep]
  split
  · exact h
  · split
    · exact dkeys_dupdate_supset _ _ k h
    · exact h

theorem finalSweep_mono_fst (oracle : App13.Oracle) (text_dict full : Dict)
    (rs : App13.RecoveryState) (k : String) (h : k ∈ dkeys full) :
    k ∈ dkeys (App13.finalSweep oracle text_dict full rs).1 := by
  simp only [App13.finalSweep]
  split
  · exact h
  · split
    · exact dkeys_dupdate_supset _ _ k h
    · exact h

theorem expandDuplicates_supset (duplicates_map unique_translated : Dict)
    (k : String) (h : k ∈ dkeys unique_translated) :
    k ∈ dkeys (App13.expandDuplicates duplicates_map unique_translated) := by
  simp only [App13.expandDuplicates]
  apply foldl_dict_mono (fun d => d)
  · intro s x k' h'
    cases dlookup unique_translated x.2 with
    | none => exact h'
    | some v =>
      simp only []
      split
      · exact dkeys_dinsert_supset _ _ _ k' h'
      · exact h'
  · exact (dkeys_dupdate_mem [] unique_translated k).mpr (Or.inr h)

theorem translatingLoop_mono_titems (oracle : App13.Oracle) (batches : List Dict)
    (st : Dict × App13.RecoveryState) (k : String)
    (h : k ∈ dkeys st.2.translated_items) :
    k ∈ dkeys (App13.translatingLoop oracle batches st).2.translated_items := by
  simp only [App13.translatingLoop]
  exact foldl_dict_mono (fun s => s.2.translated_items) _
    (fun s x k' h' => translating_step_mono_titems oracle s x k' h') _ st k h

theorem translatingLoop_mono_fst (oracle : App13.Oracle) (batches : List Dict)
    (st : Dict × App13.RecoveryState) (k : String) (h : k ∈ dkeys st.1) :
    k ∈ dkeys (App13.translatingLoop oracle batches st).1 := by
  simp only [App13.translatingLoop]
  exact foldl_dict_mono (fun s => s.1) _
    (fun s x k' h' => translating_step_mono_fst oracle s x k' h') _ st k h

theorem reconcileLoop_mono_titems (oracle : App13.Oracle) (text_dict : Dict)
    (st : Dict × App13.RecoveryState) (k : String)
    (h : k ∈ dkeys st.2.translated_items) :
    k ∈ dkeys (App13.reconcileLoop oracle text_dict st).2.translated_items := by
  simp only [App13.reconcileLoop]
  exact foldl_dict_mono (fun s => s.2.translated_items) _
    (fun s x k' h' => reconcile_step_mono_titems oracle text_dict s x k' h') _ st k h

theorem reconcileLoop_mono_fst (oracle : App13.Oracle) (text_dict : Dict)
    (st : Dict × App13.RecoveryState) (k : String) (h : k ∈ dkeys st.1) :
    k ∈ dkeys (App13.reconcileLoop oracle text_dict st).1 := by
  simp only [App13.reconcileLoop]
  exact foldl_dict_mono (fun s => s.1) _
    (fun s x k' h' => reconcile_step_mono_fst oracle text_dict s x k' h') _ st k h

theorem translate_text_mono_titems (oracle : App13.Oracle) (text_dict : Dict)
    (resume : Option App13.RecoveryState) (k : String)
    (h : k ∈ dkeys (resume.getD App13.initialRecoveryState).translated_items) :
    k ∈ dkeys (App13.translate_text oracle text_dict resume).2.translated_items := by
  simp only [App13.translate_text]
  split
  · split
    · exact finalSweep_mono_titems _ _ _ _ k h
    · exact finalSweep_mono_titems _ _ _ _ k
        (reconcileLoop_mono_titems _ _ _ k
          (translatingLoop_mono_titems _ _ _ k h))
  · split
    · exact finalSweep_mono_titems _ _ _ _ k h
    · exact finalSweep_mono_titems _ _ _ _ k
        (reconcileLoop_mono_titems _ _ _ k
          (translatingLoop_mono_titems _ _ _ k h))

theorem translate_text_mono_fst (oracle : App13.Oracle) (text_dict : Dict)
    (resume : Option App13.RecoveryState) (k : String)
    (h : k ∈ dkeys (resume.getD App13.initialRecoveryState).translated_items) :
    k ∈ dkeys (App13.translate_text oracle text_dict resume).1 := by
  simp only [App13.translate_text]
  split
  · split
    · exact finalSweep_mono_fst _ _ _ _ k h
    · exact finalSweep_mono_fst _ _ _ _ k
        (expandDuplicates_supset _ _ k
          (reconcileLoop_mono_fst _ _ _ k
            (translatingLoop_mono_fst _ _ _ k h)))
  · split
    · exact finalSweep_mono_fst _ _ _ _ k h
    · exact finalSweep_mono_fst _ _ _ _ k
        (expandDuplicates_supset _ _ k
          (reconcileLoop_mono_fst _ _ _ k
            (translatingLoop_mono_fst _ _ _ k h)))

theorem natDigits_ne_nil (n : Nat) : natDigits n ≠ [] := by
  rw [natDigits]
  split
  · simp
  · simp

theorem natDigits_small (p : Nat) (hp : p < 10) :
    natDigits p = [Nat.digitChar p] := by
  rw [natDigits]
  exact dif_pos hp

theorem natDigits_large (p : Nat) (hp : ¬ p < 10) :
    natDigits p = natDigits (p / 10) ++ [Nat.digitChar (p % 10)] := by
  conv_lhs => rw [natDigits]
  exact dif_neg hp

theorem toDigitsCore_eq_natDigits :
    ∀ (f n : Nat) (l : List Char), n < f →
      Nat.toDigitsCore 10 f n l = natDigits n ++ l := by
  intro f
  induction f with
  | zero => intro n l h; omega
  | succ f ih =>
    intro n l h
    show (if n / 10 = 0 then (n % 10).digitChar :: l
      else Nat.toDigitsCore 10 f (n / 10) ((n % 10).digitChar :: l))
      = natDigits n ++ l
    by_cases h10 : n < 10
    · rw [if_pos (by omega), natDigits_small n h10, Nat.mod_eq_of_lt h10]
      rfl
    · have hne : ¬ n / 10 = 0 := by omega
      rw [if_neg hne, ih (n / 10) ((n % 10).digitChar :: l) (by omega),
        natDigits_large n h10, List.append_assoc]
      rfl

theorem digitChar_inj :
    ∀ m, m < 10 → ∀ n, n < 10 → Nat.digitChar m = Nat.digitChar n → m = n := by
  decide

theorem natDigits_inj : ∀ m n : Nat, natDigits m = natDigits n → m = n
  | m, n => by
    intro h
    by_cases hm : m < 10 <;> by_cases hn : n < 10
    · rw [natDigits_small m hm, natDigits_small n hn] at h
      exact digitChar_inj m hm n hn (by injection h)
    · exfalso
      rw [natDigits_small m hm, natDigits_large n hn] at h
      have hlen := congrArg List.length h
      simp only [List.length_append, List.length_cons, List.length_nil] at hlen
      have hpos : 1 ≤ (natDigits (n / 10)).length :=
        List.length_pos.mpr (natDigits_ne_nil (n / 10))
      omega
    · exfalso
      rw [natDigits_large m hm, natDigits_small n hn] at h
      have hlen := congrArg List.length h
      simp only [List.length_append, List.length_cons, List.length_nil] at hlen
      have hpos : 1 ≤ (natDigits (m / 10)).length :=
        List.length_pos.mpr (natDigits_ne_nil (m / 10))
      omega
    · rw [natDigits_large m hm, natDigits_large n hn] at h
      have hinj := List.append_inj' h rfl
      have hdiv : m / 10 = n / 10 :=
        natDigits_inj (m / 10) (n / 10) hinj.1
      have hmod : m % 10 = n % 10 := by
        have h2 := hinj.2
        injection h2 with h1 _
        exact digitChar_inj (m % 10) (by omega) (n % 10) (by omega) h1
      omega
termination_by m _ => m
decreasing_by exact Nat.div_lt_self (by omega) (by decide)

theorem toString_nat_inj (m n : Nat) (h : toString m = toString n) : m = n := by
  have hm : toString m = (natDigits m).asString := by
    show (Nat.toDigitsCore 10 (m + 1) m []).asString = _
    rw [toDigitsCore_eq_natDigits (m + 1) m [] (by omega)]
    simp
  have hn : toString n = (natDigits n).asString := by
    show (Nat.toDigitsCore 10 (n + 1) n []).asString = _
    rw [toDigitsCore_eq_natDigits (n + 1) n [] (by omega)]
    simp
  rw [hm, hn] at h
  exact natDigits_inj m n (congrArg String.data h)

theorem batchLabel_inj (m n : Nat) (h : App13.batchLabel m = App13.batchLabel n) :
    m = n := by
  unfold App13.batchLabel at h
  have hdata := congrArg String.data h
  rw [String.data_append, String.data_append] at hdata
  have := List.append_cancel_left hdata
  have hts : toString (m + 1) = toString (n + 1) := by
    apply congrArg String.mk ?_
    exact this
  have := toString_nat_inj (m + 1) (n + 1) hts
  omega

theorem dkeys_cleanDict (d : Dict) : dkeys (cleanDict d) = dkeys d := by
  unfold dkeys cleanDict
  rw [List.map_map]
  rfl

/-- A successful `translate_batch` call covers every key of its payload,
provided the backend returns every requested key on success. -/
theorem translate_batch_keys (oracle : App13.Oracle)
    (hkeys : ∀ label attempt payload res,
      oracle label attempt payload = Except.ok res →
      ∀ k, k ∈ dkeys payload → k ∈ dkeys res)
    (label : String) (batch : Dict) :
    ∀ (fuel attempt : Nat) (res : Dict),
      App13.translate_batch_go oracle label batch attempt fuel = Except.ok res →
      ∀ k, k ∈ dkeys batch → k ∈ dkeys res := by
  intro fuel
  induction fuel with
  | zero =>
    intro attempt res hres k hk
    simp only [App13.translate_batch_go] at hres
    cases ho : oracle label attempt batch with
    | ok r =>
      rw [ho] at hres
      injection hres with he
      rw [← he, dkeys_cleanDict]
      exact hkeys label attempt batch r ho k hk
    | error e =>
      rw [ho] at hres
      simp [Except.map] at hres
  | succ fuel ih =>
    intro attempt res hres k hk
    simp only [App13.translate_batch_go] at hres
    cases ho : oracle label attempt batch with
    | ok r =>
      rw [ho] at hres
      injection hres with he
      rw [← he, dkeys_cleanDict]
      exact hkeys label attempt batch r ho k hk
    | error e =>
      rw [ho] at hres
      exact ih (attempt + 1) res hres k hk

theorem expandDuplicates_eq_foldl (dm ut : Dict) :
    App13.expandDuplicates dm ut = dm.foldl (expandStep ut) (dupdate [] ut) := rfl

theorem expandStep_mono (ut f : Dict) (p : String × String) (k : String)
    (h : k ∈ dkeys f) : k ∈ dkeys (expandStep ut f p) := by
  simp only [expandStep]
  split
  · split
    · exact dkeys_dinsert_supset _ _ _ k h
    · exact h
  · exact h

/-- Characterization of the `TRANSLATING` loop started on fresh indices:
no batch is skipped, the failure records are appended in order, and every
key of a batch whose call succeeded ends up in the running dict. -/
theorem translating_fold_spec (oracle : App13.Oracle)
    (hkeys : ∀ label attempt payload res,
      oracle label attempt payload = Except.ok res →
      ∀ k, k ∈ dkeys payload → k ∈ dkeys res) :
    ∀ (bs : List Dict) (j : Nat) (st : Dict × App13.RecoveryState),
    (∀ i, j ≤ i → ¬ App13.batchLabel i ∈ st.2.completed_batches) →
    (((List.enumFrom j bs).foldl (App13.translating_step oracle) st).2.failed_batches
      = st.2.failed_batches ++ (List.enumFrom j bs).filterMap (failRecordOf oracle))
    ∧ (∀ ib ∈ List.enumFrom j bs, ∀ res,
        App13.translate_batch oracle (toString (ib.1 + 1)) ib.2 2 = Except.ok res →
        ∀ k, k ∈ dkeys ib.2 →
        k ∈ dkeys (((List.enumFrom j bs).foldl (App13.translating_step oracle) st).1))
  | [], j, st, _ => by
    constructor
    · simp
    · intro ib hib
      cases hib
  | b :: bs, j, st, hfresh => by
    have henum : List.enumFrom j (b :: bs) = (j, b) :: List.enumFrom (j + 1) bs := rfl
    have hnskip : ¬ App13.batchLabel j ∈ st.2.completed_batches :=
      hfresh j (Nat.le_refl j)
    rw [henum, List.foldl_cons]
    cases htb : App13.translate_batch oracle (toString (j + 1)) b 2 with
    | ok r =>
      have hstep : App13.translating_step oracle st (j, b)
          = (dupdate st.1 r,
            { st.2 with
              translated_items := dupdate st.2.translated_items r,
              completed_batches := st.2.completed_batches ++ [App13.batchLabel j] }) := by
        simp only [App13.translating_step]
        rw [if_neg hnskip, htb]
      rw [hstep]
      have hfresh2 : ∀ i, j + 1 ≤ i →
          ¬ App13.batchLabel i ∈ (dupdate st.1 r,
            { st.2 with
              translated_items := dupdate st.2.translated_items r,
              completed_batches := st.2.completed_batches ++ [App13.batchLabel j]
              : App13.RecoveryState }).2.completed_batches := by
        intro i hi hmem
        rcases List.mem_append.mp hmem with h1 | h1
        · exact hfresh i (by omega) h1
        · have hbl : App13.batchLabel i = App13.batchLabel j := by simpa using h1
          have := batchLabel_inj i j hbl
          omega
      have hrec := translating_fold_spec oracle hkeys bs (j + 1)
        (dupdate st.1 r,
          { st.2 with
            translated_items := dupdate st.2.translated_items r,
            completed_batches := st.2.completed_batches ++ [App13.batchLabel j] })
        hfresh2
      constructor
      · rw [hrec.1]
        have hfr : failRecordOf oracle (j, b) = none := by
          simp only [failRecordOf]
          rw [htb]
        rw [List.filterMap_cons, hfr]
      · intro ib hib res hres k hk
        rcases List.mem_cons.mp hib with hib1 | hib1
        · subst hib1
          have hkb : k ∈ dkeys b := hk
          have hkr : k ∈ dkeys (dupdate st.1 r) :=
            (dkeys_dupdate_mem st.1 r k).mpr
              (Or.inr (translate_batch_keys oracle hkeys (toString (j + 1)) b
                2 0 r htb k hkb))
          exact foldl_dict_mono (fun s => s.1) (App13.translating_step oracle)
            (fun s x k2 h2 => translating_step_mono_fst oracle s x k2 h2)
            (List.enumFrom (j + 1) bs) _ k hkr
        · exact hrec.2 ib hib1 res hres k hk
    | error e =>
      have hstep : App13.translating_step oracle st (j, b)
          = (st.1,
            { st.2 with
              failed_batches := st.2.failed_batches
                ++ [⟨App13.batchLabel j, dkeys b, e⟩] }) := by
        simp only [App13.translating_step]
        rw [if_neg hnskip, htb]
      rw [hstep]
      have hfresh2 : ∀ i, j + 1 ≤ i →
          ¬ App13.batchLabel i ∈ (st.1,
            { st.2 with
              failed_batches := st.2.failed_batches
                ++ [⟨App13.batchLabel j, dkeys b, e⟩]
              : App13.RecoveryState }).2.completed_batches :=
        fun i hi => hfresh i (by omega)
      have hrec := translating_fold_spec oracle hkeys bs (j + 1)
        (st.1,
          { st.2 with
            failed_batches := st.2.failed_batches
              ++ [⟨App13.batchLabel j, dkeys b, e⟩] })
        hfresh2
      constructor
      · rw [hrec.1]
        have hfr : failRecordOf oracle (j, b)
            = some ⟨App13.batchLabel j, dkeys b, e⟩ := by
          simp only [failRecordOf]
          rw [htb]
        rw [List.filterMap_cons, hfr]
        simp
      · intro ib hib res hres k hk
        rcases List.mem_cons.mp hib with hib1 | hib1
        · subst hib1
          rw [htb] at hres
          cases hres
        · exact hrec.2 ib hib1 res hres k hk

theorem mem_enumFrom_of_mem {α : Type} (b : α) :
    ∀ (bs : List α) (j : Nat), b ∈ bs → ∃ i, (i, b) ∈ List.enumFrom j bs
  | [], _, h => absurd h (by simp)
  | c :: bs, j, h => by
    rcases List.mem_cons.mp h with h1 | h1
    · exact ⟨j, by rw [h1]; exact List.mem_cons_self _ _⟩
    · rcases mem_enumFrom_of_mem b bs (j + 1) h1 with ⟨i, hi⟩
      exact ⟨i, List.mem_cons_of_mem _ hi⟩

/-- If a duplicate-map entry's representative is translated, the
re-expansion covers the entry's key. -/
theorem expand_fold_covers (ut : Dict) (k r : String) (hkr : k ≠ r)
    (hr : dmem ut r = true) :
    ∀ (l : List (String × String)) (f : Dict), (k, r) ∈ l →
    k ∈ dkeys (l.foldl (expandStep ut) f)
  | [], _, h => absurd h (by simp)
  | p :: l, f, h => by
    rw [List.foldl_cons]
    rcases List.mem_cons.mp h with h1 | h1
    · have hp1 : p.1 = k := by rw [← h1]
      have hp2 : p.2 = r := by rw [← h1]
      have hlook : (dlookup ut r).isSome := by rw [dlookup_isSome, hr]
      cases hv : dlookup ut r with
      | none => rw [hv] at hlook; cases hlook
      | some v =>
        have hself : expandStep ut f p = dinsert f k v := by
          simp only [expandStep, hp1, hp2, hv, ne_eq]
          rw [if_pos hkr]
        rw [hself]
        exact foldl_dict_mono (fun d => d) (expandStep ut)
          (fun s x k2 h2 => expandStep_mono ut s x k2 h2)
          l _ k ((dkeys_dinsert_mem f k v k).mpr (Or.inr rfl))
    · exact expand_fold_covers ut k r hkr hr l (expandStep ut f p) h1

theorem expandDuplicates_covers (dm ut : Dict) (k r : String) (hkr : k ≠ r)
    (hmem : (k, r) ∈ dm) (hr : dmem ut r = true) :
    k ∈ dkeys (App13.expandDuplicates dm ut) := by
  rw [expandDuplicates_eq_foldl]
  exact expand_fold_covers ut k r hkr hr dm (dupdate [] ut) hmem

/-! ## Unfolding a fresh run of `translate_text` -/
theorem filter_dmem_nil (d : Dict) :
    d.filter (fun p => ! dmem ([] : Dict) p.1) = d :=
  List.filter_eq_self.mpr (fun p _ => by rw [dmem_nil]; rfl)

/-- A fresh run (`resume = none`, non-empty deduplicated dict) is the
TRANSLATING loop over the smart batches, then failure reconciliation,
duplicate re-expansion and the final sweep. -/
theorem translate_text_none_eq (oracle : App13.Oracle) (td : Dict)
    (hne : (App13.deduplicate_content td).1.isEmpty = false) :
    App13.translate_text oracle td none
      = App13.finalSweep oracle td
          (App13.expandDuplicates (App13.deduplicate_content td).2
            (App13.reconcileLoop oracle td
              (App13.translatingLoop oracle
                (App13.split_dict_into_smart_batches
                  (App13.deduplicate_content td).1 150000 2000)
                ([], { App13.initialRecoveryState with
                        duplicates_map := (App13.deduplicate_content td).2 }))).1)
          (App13.reconcileLoop oracle td
            (App13.translatingLoop oracle
              (App13.split_dict_into_smart_batches
                (App13.deduplicate_content td).1 150000 2000)
              ([], { App13.initialRecoveryState with
                      duplicates_map := (App13.deduplicate_content td).2 }))).2 := by
  have h1 : App13.translate_text oracle td none
      = (if ((App13.deduplicate_content td).1.filter
              (fun p => ! dmem ([] : Dict) p.1)).isEmpty then
          App13.finalSweep oracle td []
            { App13.initialRecoveryState with
              duplicates_map := (App13.deduplicate_content td).2 }
        else
          App13.finalSweep oracle td
            (App13.expandDuplicates (App13.deduplicate_content td).2
              (App13.reconcileLoop oracle td
                (App13.translatingLoop oracle
                  (App13.split_dict_into_smart_batches
                    ((App13.deduplicate_content td).1.filter
                      (fun p => ! dmem ([] : Dict) p.1)) 150000 2000)
                  ([], { App13.initialRecoveryState with
                          duplicates_map := (App13.deduplicate_content td).2 }))).1)
            (App13.reconcileLoop oracle td
              (App13.translatingLoop oracle
                (App13.split_dict_into_smart_batches
                  ((App13.deduplicate_content td).1.filter
                    (fun p => ! dmem ([] : Dict) p.1)) 150000 2000)
                ([], { App13.initialRecoveryState with
                        duplicates_map := (App13.deduplicate_content td).2 }))).2) := rfl
  rw [filter_dmem_nil] at h1
  rw [h1, hne]
  rfl

theorem echoOracle_keys : ∀ label attempt payload res,
    echoOracle label attempt payload = Except.ok res →
    ∀ k, k ∈ dkeys payload → k ∈ dkeys res := by
  intro _ _ payload res h k hk
  injection h with he
  rw [← he]
  exact hk

/-! ## Lookup after insertion and update -/
theorem dlookup_overwrite (k v : String) :
    ∀ (d : Dict), dmem d k = true →
    dlookup (d.map (fun p => if p.1 == k then (p.1, v) else p)) k = some v
  | [], h => by simp [dmem_nil] at h
  | p :: d, h => by
    simp only [List.map_cons]
    by_cases hp : p.1 = k
    · rw [if_pos (by simpa using hp)]
      simp only [dlookup_cons]
      rw [if_pos hp]
    · rw [if_neg (by simpa using hp)]
      simp only [dlookup_cons]
      rw [if_neg hp]
      apply dlookup_overwrite k v d
      rw [dmem_cons] at h
      have hb : (p.1 == k) = false := by simpa using hp
      rw [hb] at h
      simpa using h

theorem dlookup_append_single (k v : String) :
    ∀ (d : Dict), dmem d k = false → dlookup (d ++ [(k, v)]) k = some v
  | [], _ => by
    rw [List.nil_append]
    simp [dlookup_cons]
  | p :: d, h => by
    rw [dmem_cons] at h
    have hp : ¬ p.1 = k := by
      intro he
      rw [he] at h
      simp at h
    rw [List.cons_append]
    simp only [dlookup_cons]
    rw [if_neg hp]
    apply dlookup_append_single k v d
    have hb : (p.1 == k) = false := by simpa using hp
    rw [hb] at h
    simpa using h

theorem dlookup_dinsert_self (d : Dict) (k v : String) :
    dlookup (dinsert d k v) k = some v := by
  unfold dinsert
  by_cases hm : dmem d k
  · rw [if_pos hm]
    exact dlookup_overwrite k v d hm
  · rw [if_neg hm]
    exact dlookup_append_single k v d (by simpa using hm)

theorem dlookup_overwrite_ne (k v a : String) (h : ¬ k = a) :
    ∀ (d : Dict),
    dlookup (d.map (fun p => if p.1 == k then (p.1, v) else p)) a = dlookup d a
  | [] => rfl
  | p :: d => by
    simp only [List.map_cons]
    by_cases hp : p.1 = k
    · rw [if_pos (by simpa using hp)]
      simp only [dlookup_cons]
      have hpa : ¬ p.1 = a := by rw [hp]; exact h
      rw [if_neg hpa, if_neg hpa]
      exact dlookup_overwrite_ne k v a h d
    · rw [if_neg (by simpa using hp)]
      simp only [dlookup_cons]
      by_cases hpa : p.1 = a
      · rw [if_pos hpa, if_pos hpa]
      · rw [if_neg hpa, if_neg hpa]
        exact dlookup_overwrite_ne k v a h d

theorem dlookup_append_single_ne (k v a : String) (h : ¬ k = a) :
    ∀ (d : Dict), dlookup (d ++ [(k, v)]) a = dlookup d a
  | [] => by
    rw [List.nil_append]
    simp only [dlookup_cons]
    rw [if_neg h, dlookup_nil]
  | p :: d => by
    rw [List.cons_append]
    simp only [dlookup_cons]
    by_cases hpa : p.1 = a
    · rw [if_pos hpa, if_pos hpa]
    · rw [if_neg hpa, if_neg hpa]
      exact dlookup_append_single_ne k v a h d

theorem dlookup_dinsert_ne (d : Dict) (k v a : String) (h : ¬ k = a) :
    dlookup (dinsert d k v) a = dlookup d a := by
  unfold dinsert
  by_cases hm : dmem d k
  · rw [if_pos hm]
    exact dlookup_overwrite_ne k v a h d
  · rw [if_neg hm]
    exact dlookup_append_single_ne k v a h d

theorem dlookup_dupdate_not_mem (a : String) :
    ∀ (e d : Dict), ¬ a ∈ dkeys e → dlookup (dupdate d e) a = dlookup d a
  | [], _, _ => rfl
  | q :: e, d, h => by
    have hq : ¬ q.1 = a := by
      intro he
      exact h (by rw [dkeys_cons, he]; exact List.mem_cons_self _ _)
    have h1 : ¬ a ∈ dkeys e := by
      intro he
      exact h (by rw [dkeys_cons]; exact List.mem_cons_of_mem _ he)
    have hstep : dupdate d (q :: e) = dupdate (dinsert d q.1 q.2) e := rfl
    rw [hstep, dlookup_dupdate_not_mem a e _ h1, dlookup_dinsert_ne _ _ _ _ hq]

theorem dlookup_dupdate_of_nodup (a v : String) :
    ∀ (e d : Dict), (dkeys e).Nodup → dlookup e a = some v →
    dlookup (dupdate d e) a = some v
  | [], _, _, he => by rw [dlookup_nil] at he; cases he
  | q :: e, d, hnd, he => by
    rw [dkeys_cons, List.nodup_cons] at hnd
    rw [dlookup_cons] at he
    have hstep : dupdate d (q :: e) = dupdate (dinsert d q.1 q.2) e := rfl
    by_cases hq : q.1 = a
    · rw [if_pos hq] at he
      injection he with hv
      rw [hstep, dlookup_dupdate_not_mem a e _ (by rw [← hq]; exact hnd.1),
        hq, hv]
      exact dlookup_dinsert_self d a v
    · rw [if_neg hq] at he
      rw [hstep]
      exact dlookup_dupdate_of_nodup a v e _ hnd.2 he

theorem dlookup_map_value (g : String → String) (a : String) :
    ∀ (d : Dict),
    dlookup (d.map (fun p => (p.1, g p.2))) a = (dlookup d a).map g
  | [] => rfl
  | p :: d => by
    simp only [List.map_cons, dlookup_cons]
    by_cases hpa : p.1 = a
    · rw [if_pos hpa, if_pos hpa]
      rfl
    · rw [if_neg hpa, if_neg hpa]
      exact dlookup_map_value g a d

theorem dkeys_map_value (g : String → String) (d : Dict) :
    dkeys (d.map (fun p => (p.1, g p.2))) = dkeys d := by
  unfold dkeys
  rw [List.map_map]
  rfl

theorem dlookup_map_clean (f : String → String) (a : String) :
    ∀ (d : Dict),
    dlookup (d.map (fun p => (p.1, clean_text (f p.2)))) a
      = (dlookup d a).map (fun t => clean_text (f t))
  | [] => rfl
  | p :: d => by
    simp only [List.map_cons, dlookup_cons]
    by_cases hpa : p.1 = a
    · rw [if_pos hpa, if_pos hpa]
      rfl
    · rw [if_neg hpa, if_neg hpa]
      exact dlookup_map_clean f a d

theorem dkeys_map_clean (f : String → String) (d : Dict) :
    dkeys (d.map (fun p => (p.1, clean_text (f p.2)))) = dkeys d := by
  unfold dkeys
  rw [List.map_map]
  rfl

theorem cleanDict_map (f : String → String) (d : Dict) :
    cleanDict (d.map (fun p => (p.1, f p.2)))
      = d.map (fun p => (p.1, clean_text (f p.2))) := by
  unfold cleanDict
  rw [List.map_map]
  rfl

theorem dkeys_dinsert_nodup (d : Dict) (k v : String)
    (h : (dkeys d).Nodup) : (dkeys (dinsert d k v)).Nodup := by
  unfold dinsert
  by_cases hm : dmem d k
  · rw [if_pos hm]
    have he : dkeys (d.map (fun p => if p.1 == k then (p.1, v) else p))
        = dkeys d := by
      unfold dkeys
      rw [List.map_map]
      apply List.map_congr_left
      intro p _
      by_cases hp : p.1 = k
      · simp [Function.comp, hp]
      · simp [Function.comp, hp]
    rw [he]
    exact h
  · rw [if_neg hm]
    unfold dkeys
    rw [List.map_append]
    simp only [List.map_cons, List.map_nil]
    rw [List.nodup_append]
    refine ⟨h, List.nodup_singleton k, ?_⟩
    intro a ha hak
    rw [List.mem_singleton] at hak
    subst hak
    exact hm ((dmem_iff_mem_dkeys d a).mpr ha)

theorem rebuildBatch_eq_foldl (td : Dict) (keys : List String) :
    App13.rebuildBatch td keys = keys.foldl (rebuildStep td) [] := rfl

theorem rebuild_go_lookup_not_mem (td : Dict) (a : String) :
    ∀ (keys : List String) (acc : Dict), ¬ a ∈ keys →
    dlookup (keys.foldl (rebuildStep td) acc) a = dlookup acc a
  | [], _, _ => rfl
  | kk :: keys, acc, h => by
    have h1 : ¬ a ∈ keys := fun hx => h (List.mem_cons_of_mem _ hx)
    have h2 : ¬ kk = a := by
      intro hx
      exact h (by rw [hx]; exact List.mem_cons_self _ _)
    rw [List.foldl_cons, rebuild_go_lookup_not_mem td a keys _ h1]
    simp only [rebuildStep]
    cases hv : dlookup td kk with
    | some v => exact dlookup_dinsert_ne acc kk v a h2
    | none => rfl

theorem rebuild_go_lookup_mem (td : Dict) (a t : String)
    (ht : dlookup td a = some t) :
    ∀ (keys : List String) (acc : Dict), a ∈ keys →
    dlookup (keys.foldl (rebuildStep td) acc) a = some t
  | [], _, h => absurd h (by simp)
  | kk :: keys, acc, h => by
    rw [List.foldl_cons]
    by_cases har : a ∈ keys
    · exact rebuild_go_lookup_mem td a t ht keys _ har
    · have hak : kk = a := by
        rcases List.mem_cons.mp h with h1 | h1
        · exact h1.symm
        · exact absurd h1 har
      subst hak
      rw [rebuild_go_lookup_not_mem td kk keys _ har]
      simp only [rebuildStep]
      rw [ht]
      exact dlookup_dinsert_self acc kk t

theorem rebuildBatch_lookup_mem (td : Dict) (keys : List String) (a t : String)
    (h : a ∈ keys) (ht : dlookup td a = some t) :
    dlookup (App13.rebuildBatch td keys) a = some t := by
  rw [rebuildBatch_eq_foldl]
  exact rebuild_go_lookup_mem td a t ht keys [] h

theorem rebuildBatch_lookup_not_mem (td : Dict) (keys : List String)
    (a : String) (h : ¬ a ∈ keys) :
    dlookup (App13.rebuildBatch td keys) a = none := by
  rw [rebuildBatch_eq_foldl, rebuild_go_lookup_not_mem td a keys [] h]
  rfl

theorem rebuild_go_keys_nodup (td : Dict) :
    ∀ (keys : List String) (acc : Dict),
    (dkeys acc).Nodup → (dkeys (keys.foldl (rebuildStep td) acc)).Nodup
  | [], _, h => h
  | kk :: keys, acc, h => by
    rw [List.foldl_cons]
    apply rebuild_go_keys_nodup td keys
    simp only [rebuildStep]
    cases dlookup td kk with
    | some v => exact dkeys_dinsert_nodup acc kk v h
    | none => exact h

theorem rebuildBatch_keys_nodup (td : Dict) (keys : List String) :
    (dkeys (App13.rebuildBatch td keys)).Nodup := by
  rw [rebuildBatch_eq_foldl]
  exact rebuild_go_keys_nodup td keys [] (by simp [dkeys])

theorem rebuild_go_payloadOk (td : Dict) :
    ∀ (keys : List String) (acc : Dict),
    (∀ p ∈ acc, dlookup td p.1 = some p.2) →
    ∀ p ∈ keys.foldl (rebuildStep td) acc, dlookup td p.1 = some p.2
  | [], _, hacc => hacc
  | kk :: keys, acc, hacc => by
    rw [List.foldl_cons]
    apply rebuild_go_payloadOk td keys
    intro p hp
    simp only [rebuildStep] at hp
    cases hv : dlookup td kk with
    | some v =>
      rw [hv] at hp
      rcases mem_dinsert acc kk v p hp with h1 | h1
      · exact hacc p h1
      · rw [h1]
        exact hv
    | none =>
      rw [hv] at hp
      exact hacc p hp

theorem rebuildBatch_payloadOk (td : Dict) (keys : List String) :
    ∀ p ∈ App13.rebuildBatch td keys, dlookup td p.1 = some p.2 := by
  rw [rebuildBatch_eq_foldl]
  exact rebuild_go_payloadOk td keys [] (fun p hp => absurd hp (by simp))

theorem chunkGo_entries (n : Nat) :
    ∀ (fuel : Nat) (l : List (String × String)) (c : Dict),
      c ∈ App13.chunkGo n fuel l → ∀ p ∈ c, p ∈ l
  | _, [], c, hc => by simp [App13.chunkGo] at hc
  | 0, q :: rest, c, hc => by
    rw [show App13.chunkGo n 0 (q :: rest) = [q :: rest] from rfl] at hc
    rw [List.mem_singleton] at hc
    subst hc
    exact fun p hp => hp
  | fuel + 1, q :: rest, c, hc => by
    rw [show App13.chunkGo n (fuel + 1) (q :: rest)
        = (q :: rest).take n :: App13.chunkGo n fuel (rest.drop (n - 1))
      from rfl] at hc
    intro p hp
    rcases List.mem_cons.mp hc with h1 | h1
    · subst h1
      exact List.take_subset n (q :: rest) hp
    · have hrec := chunkGo_entries n fuel (rest.drop (n - 1)) c h1 p hp
      exact List.mem_cons_of_mem q (List.drop_subset (n - 1) rest hrec)

theorem chunkList_entries (n : Nat) (l : List (String × String)) (c : Dict)
    (hc : c ∈ App13.chunkList n l) : ∀ p ∈ c, p ∈ l :=
  chunkGo_entries n l.length l c hc

theorem snd_mem_of_mem_enumFrom {α : Type} (b : α) (i : Nat) :
    ∀ (l : List α) (j : Nat), (i, b) ∈ List.enumFrom j l → b ∈ l
  | [], _, h => absurd h (by simp)
  | c :: l, j, h => by
    rcases List.mem_cons.mp h with h1 | h1
    · have hb : b = c := congrArg Prod.snd h1
      rw [hb]
      exact List.mem_cons_self _ _
    · exact List.mem_cons_of_mem _ (snd_mem_of_mem_enumFrom b i l (j + 1) h1)

theorem Sound_nil (f : String → String) (td : Dict) : Sound f td [] :=
  fun _ hp => absurd hp (by simp)

theorem Sound_dupdate (f : String → String) (td d e : Dict)
    (hd : Sound f td d) (he : Sound f td e) : Sound f td (dupdate d e) := by
  intro p hp
  rcases mem_dupdate d e p hp with h | h
  · exact hd p h
  · exact he p h

theorem Sound_result (f : String → String) (td b : Dict)
    (hb : ∀ p ∈ b, dlookup td p.1 = some p.2) :
    Sound f td (b.map (fun p => (p.1, clean_text (f p.2)))) := by
  intro p hp
  rcases List.mem_map.mp hp with ⟨q, hq, he⟩
  refine ⟨q.2, ?_, ?_⟩
  · rw [← he]
    exact hb q hq
  · rw [← he]

theorem detOracle_translate_batch (f : String → String) (label : String)
    (b : Dict) (n : Nat) :
    App13.translate_batch (detOracle f) label b n
      = Except.ok (b.map (fun p => (p.1, clean_text (f p.2)))) := by
  have h0 : App13.translate_batch (detOracle f) label b n
      = Except.ok (cleanDict (b.map (fun p => (p.1, f p.2)))) := by
    cases n <;> rfl
  rw [h0, cleanDict_map]

theorem translating_step_detOracle (f : String → String)
    (st : Dict × App13.RecoveryState) (ib : Nat × Dict) :
    App13.translating_step (detOracle f) st ib
      = if App13.batchLabel ib.1 ∈ st.2.completed_batches then st
        else
          (dupdate st.1 (ib.2.map (fun p => (p.1, clean_text (f p.2)))),
            { st.2 with
              translated_items := dupdate st.2.translated_items
                (ib.2.map (fun p => (p.1, clean_text (f p.2)))),
              completed_batches :=
                st.2.completed_batches ++ [App13.batchLabel ib.1] }) := by
  simp only [App13.translating_step, detOracle_translate_batch]

theorem reconcile_sub_step_detOracle (f : String → String)
    (fb : App13.FailedBatch) (s : Dict × App13.RecoveryState)
    (isb : Nat × Dict) :
    App13.reconcile_sub_step (detOracle f) fb s isb
      = (dupdate s.1 (isb.2.map (fun p => (p.1, clean_text (f p.2)))),
        { s.2 with
          translated_items := dupdate s.2.translated_items
            (isb.2.map (fun p => (p.1, clean_text (f p.2)))),
          completed_batches := s.2.completed_batches
            ++ [fb.batch_id ++ "_sub_" ++ toString (isb.1 + 1)] }) := by
  simp only [App13.reconcile_sub_step, detOracle_translate_batch]

theorem translating_fold_sound (f : String → String) (td : Dict) :
    ∀ (l : List (Nat × Dict)) (st : Dict × App13.RecoveryState),
    (∀ ib ∈ l, ∀ p ∈ ib.2, dlookup td p.1 = some p.2) →
    Sound f td st.1 → Sound f td st.2.translated_items →
    Sound f td ((l.foldl (App13.translating_step (detOracle f)) st)).1
    ∧ Sound f td
      ((l.foldl (App13.translating_step (detOracle f)) st)).2.translated_items
  | [], _, _, h1, h2 => ⟨h1, h2⟩
  | ib :: l, st, hpl, h1, h2 => by
    rw [List.foldl_cons]
    apply translating_fold_sound f td l _
      (fun x hx => hpl x (List.mem_cons_of_mem _ hx))
    · rw [translating_step_detOracle]
      split
      · exact h1
      · exact Sound_dupdate f td _ _ h1
          (Sound_result f td ib.2 (hpl ib (List.mem_cons_self _ _)))
    · rw [translating_step_detOracle]
      split
      · exact h2
      · exact Sound_dupdate f td _ _ h2
          (Sound_result f td ib.2 (hpl ib (List.mem_cons_self _ _)))

theorem translatingLoop_sound (f : String → String) (td : Dict)
    (bs : List Dict) (st : Dict × App13.RecoveryState)
    (hbs : ∀ b ∈ bs, ∀ p ∈ b, dlookup td p.1 = some p.2)
    (h1 : Sound f td st.1) (h2 : Sound f td st.2.translated_items) :
    Sound f td (App13.translatingLoop (detOracle f) bs st).1
    ∧ Sound f td
      (App13.translatingLoop (detOracle f) bs st).2.translated_items := by
  have hpl : ∀ ib ∈ List.enumFrom 0 bs, ∀ p ∈ ib.2,
      dlookup td p.1 = some p.2 := by
    intro ib hib p hp
    rcases ib with ⟨i, b⟩
    exact hbs b (snd_mem_of_mem_enumFrom b i bs 0 hib) p hp
  exact translating_fold_sound f td (List.enumFrom 0 bs) st hpl h1 h2

theorem reconcile_subs_fold_sound (f : String → String) (td : Dict)
    (fb : App13.FailedBatch) :
    ∀ (l : List (Nat × Dict)) (s : Dict × App13.RecoveryState),
    (∀ isb ∈ l, ∀ p ∈ isb.2, dlookup td p.1 = some p.2) →
    Sound f td s.1 → Sound f td s.2.translated_items →
    Sound f td ((l.foldl (App13.reconcile_sub_step (detOracle f) fb) s)).1
    ∧ Sound f td
      ((l.foldl
        (App13.reconcile_sub_step (detOracle f) fb) s)).2.translated_items
  | [], _, _, h1, h2 => ⟨h1, h2⟩
  | isb :: l, s, hpl, h1, h2 => by
    rw [List.foldl_cons]
    apply reconcile_subs_fold_sound f td fb l _
      (fun x hx => hpl x (List.mem_cons_of_mem _ hx))
    · rw [reconcile_sub_step_detOracle]
      exact Sound_dupdate f td _ _ h1
        (Sound_result f td isb.2 (hpl isb (List.mem_cons_self _ _)))
    · rw [reconcile_sub_step_detOracle]
      exact Sound_dupdate f td _ _ h2
        (Sound_result f td isb.2 (hpl isb (List.mem_cons_self _ _)))

theorem reconcile_step_sound (f : String → String) (td : Dict)
    (st : Dict × App13.RecoveryState) (fb : App13.FailedBatch)
    (h1 : Sound f td st.1) (h2 : Sound f td st.2.translated_items) :
    Sound f td (App13.reconcile_step (detOracle f) td st fb).1
    ∧ Sound f td
      (App13.reconcile_step (detOracle f) td st fb).2.translated_items := by
  have hpl : ∀ isb ∈ (App13.chunkList
      (max 5 ((App13.rebuildBatch td fb.keys).length / 4))
      (App13.rebuildBatch td fb.keys)).enum,
      ∀ p ∈ isb.2, dlookup td p.1 = some p.2 := by
    intro isb hisb p hp
    rcases isb with ⟨i, c⟩
    have hc : c ∈ App13.chunkList
        (max 5 ((App13.rebuildBatch td fb.keys).length / 4))
        (App13.rebuildBatch td fb.keys) :=
      snd_mem_of_mem_enumFrom c i _ 0 hisb
    exact rebuildBatch_payloadOk td fb.keys p (chunkList_entries _ _ c hc p hp)
  have h := reconcile_subs_fold_sound f td fb
    ((App13.chunkList (max 5 ((App13.rebuildBatch td fb.keys).length / 4))
      (App13.rebuildBatch td fb.keys)).enum) st hpl h1 h2
  exact ⟨h.1, h.2⟩

theorem reconcile_fold_sound (f : String → String) (td : Dict) :
    ∀ (l : List App13.FailedBatch) (st : Dict × App13.RecoveryState),
    Sound f td st.1 → Sound f td st.2.translated_items →
    Sound f td ((l.foldl (App13.reconcile_step (detOracle f) td) st)).1
    ∧ Sound f td
      ((l.foldl (App13.reconcile_step (detOracle f) td) st)).2.translated_items
  | [], _, h1, h2 => ⟨h1, h2⟩
  | fb :: l, st, h1, h2 => by
    rw [List.foldl_cons]
    have hs := reconcile_step_sound f td st fb h1 h2
    exact reconcile_fold_sound f td l _ hs.1 hs.2

theorem reconcileLoop_sound (f : String → String) (td : Dict)
    (st : Dict × App13.RecoveryState)
    (h1 : Sound f td st.1) (h2 : Sound f td st.2.translated_items) :
    Sound f td (App13.reconcileLoop (detOracle f) td st).1
    ∧ Sound f td
      (App13.reconcileLoop (detOracle f) td st).2.translated_items :=
  reconcile_fold_sound f td st.2.failed_batches st h1 h2

theorem expand_fold_sound (f : String → String) (td ut : Dict)
    (hut : Sound f td ut) :
    ∀ (l : List (String × String)) (acc : Dict),
    (∀ q ∈ l, ∃ t, dlookup td q.1 = some t ∧ dlookup td q.2 = some t) →
    Sound f td acc → Sound f td (l.foldl (expandStep ut) acc)
  | [], _, _, hacc => hacc
  | q :: l, acc, hl, hacc => by
    rw [List.foldl_cons]
    apply expand_fold_sound f td ut hut l _
      (fun x hx => hl x (List.mem_cons_of_mem _ hx))
    simp only [expandStep]
    split
    · rename_i v hv
      split
      · intro p hp
        rcases mem_dinsert acc q.1 v p hp with h1 | h1
        · exact hacc p h1
        · rcases hl q (List.mem_cons_self _ _) with ⟨t, ht1, ht2⟩
          rcases hut (q.2, v) (dlookup_mem ut q.2 v hv) with ⟨t2, ht2', hv2⟩
          have htt : t2 = t := by
            have h3 : dlookup td q.2 = some t2 := ht2'
            rw [h3] at ht2
            exact Option.some.inj ht2
          rw [h1]
          exact ⟨t, ht1, by rw [hv2, htt]⟩
      · exact hacc
    · exact hacc

theorem expandDuplicates_sound (f : String → String) (td dm ut : Dict)
    (hdm : ∀ q ∈ dm, ∃ t, dlookup td q.1 = some t ∧ dlookup td q.2 = some t)
    (hut : Sound f td ut) :
    Sound f td (App13.expandDuplicates dm ut) := by
  rw [expandDuplicates_eq_foldl]
  exact expand_fold_sound f td ut hut dm (dupdate [] ut) hdm
    (Sound_dupdate f td [] ut (Sound_nil f td) hut)

theorem split_batches_entries (input : Dict) (hnd : (dkeys input).Nodup)
    (mx pr : Nat) (b : Dict)
    (hb : b ∈ App13.split_dict_into_smart_batches input mx pr) :
    ∀ p ∈ b, p ∈ input := by
  intro p hp
  have hfl : p ∈ (App13.split_dict_into_smart_batches input mx pr).flatten :=
    List.mem_flatten.mpr ⟨b, hb, hp⟩
  exact (App13.split_batches_flatten input hnd mx pr).mem_iff.mp hfl

/-- With a deterministic always-succeeding backend, the final sweep turns
any value-sound partial result into the canonical full translation: every
key of `text_dict` maps to the cleaned deterministic translation of its
text, and no other key is present. -/
theorem finalSweep_detOracle_lookup (f : String → String) (td full : Dict)
    (rs : App13.RecoveryState) (_hnd : (dkeys td).Nodup)
    (hfull : Sound f td full) (k : String) :
    dlookup (App13.finalSweep (detOracle f) td full rs).1 k
      = (dlookup td k).map (fun t => clean_text (f t)) := by
  simp only [App13.finalSweep]
  split
  · rename_i hmiss
    have hnil : (dkeys td).filter (fun a => ! dmem full a) = [] :=
      List.isEmpty_iff.mp hmiss
    have hcov : ∀ a ∈ dkeys td, dmem full a = true := by
      intro a ha
      by_contra hm
      have hm' : dmem full a = false := by
        revert hm
        cases dmem full a <;> simp
      have hmem : a ∈ (dkeys td).filter (fun a => ! dmem full a) :=
        List.mem_filter.mpr ⟨ha, by rw [hm']; rfl⟩
      rw [hnil] at hmem
      cases hmem
    show dlookup full k = (dlookup td k).map (fun t => clean_text (f t))
    cases hk : dlookup td k with
    | some t =>
      have hkd : k ∈ dkeys td := by
        rw [← dmem_iff_mem_dkeys, ← dlookup_isSome, hk]
        rfl
      have hdm := hcov k hkd
      rw [← dlookup_isSome] at hdm
      cases hv : dlookup full k with
      | none => rw [hv] at hdm; cases hdm
      | some v =>
        rcases hfull (k, v) (dlookup_mem full k v hv) with ⟨t2, ht2, hv2⟩
        have h3 : dlookup td k = some t2 := ht2
        rw [hk] at h3
        have htt : t = t2 := Option.some.inj h3
        have hv2b : v = clean_text (f t2) := hv2
        show some v = some (clean_text (f t))
        rw [hv2b, htt]
    | none =>
      cases hv : dlookup full k with
      | none => rfl
      | some v =>
        rcases hfull (k, v) (dlookup_mem full k v hv) with ⟨t2, ht2, _⟩
        have h3 : dlookup td k = some t2 := ht2
        rw [hk] at h3
        cases h3
  · simp only [detOracle, cleanDict_map]
    cases hk : dlookup td k with
    | some t =>
      by_cases hmemk : dmem full k = true
      · have hnotm : ¬ k ∈ (dkeys td).filter (fun a => ! dmem full a) := by
          intro hmem
          have h2 := (List.mem_filter.mp hmem).2
          rw [hmemk] at h2
          cases h2
        have hmd : dlookup (App13.rebuildBatch td
            ((dkeys td).filter (fun a => ! dmem full a))) k = none :=
          rebuildBatch_lookup_not_mem td _ k hnotm
        have hfb : dlookup ((App13.rebuildBatch td
            ((dkeys td).filter (fun a => ! dmem full a))).map
              (fun p => (p.1, clean_text (f p.2)))) k = none := by
          rw [dlookup_map_clean, hmd]
          rfl
        have hnfb := (dlookup_eq_none_iff _ k).mp hfb
        rw [dlookup_dupdate_not_mem k _ full hnfb]
        rw [← dlookup_isSome] at hmemk
        cases hv : dlookup full k with
        | none => rw [hv] at hmemk; cases hmemk
        | some v =>
          rcases hfull (k, v) (dlookup_mem full k v hv) with ⟨t2, ht2, hv2⟩
          have h3 : dlookup td k = some t2 := ht2
          rw [hk] at h3
          have htt : t = t2 := Option.some.inj h3
          have hv2b : v = clean_text (f t2) := hv2
          show some v = some (clean_text (f t))
          rw [hv2b, htt]
      · have hm' : dmem full k = false := by
          revert hmemk
          cases dmem full k <;> simp
        have hkd : k ∈ dkeys td := by
          rw [← dmem_iff_mem_dkeys, ← dlookup_isSome, hk]
          rfl
        have hmem : k ∈ (dkeys td).filter (fun a => ! dmem full a) :=
          List.mem_filter.mpr ⟨hkd, by rw [hm']; rfl⟩
        have hmd : dlookup (App13.rebuildBatch td
            ((dkeys td).filter (fun a => ! dmem full a))) k = some t :=
          rebuildBatch_lookup_mem td _ k t hmem hk
        have hfb : dlookup ((App13.rebuildBatch td
            ((dkeys td).filter (fun a => ! dmem full a))).map
              (fun p => (p.1, clean_text (f p.2)))) k
            = some (clean_text (f t)) := by
          rw [dlookup_map_clean, hmd]
          rfl
        have hnodup : (dkeys ((App13.rebuildBatch td
            ((dkeys td).filter (fun a => ! dmem full a))).map
              (fun p => (p.1, clean_text (f p.2))))).Nodup := by
          rw [dkeys_map_clean]
          exact rebuildBatch_keys_nodup td _
        rw [dlookup_dupdate_of_nodup k (clean_text (f t)) _ full hnodup hfb]
        rfl
    | none =>
      have hkd : ¬ k ∈ dkeys td := (dlookup_eq_none_iff td k).mp hk
      have hnotm : ¬ k ∈ (dkeys td).filter (fun a => ! dmem full a) :=
        fun hmem => hkd (List.mem_filter.mp hmem).1
      have hmd : dlookup (App13.rebuildBatch td
          ((dkeys td).filter (fun a => ! dmem full a))) k = none :=
        rebuildBatch_lookup_not_mem td _ k hnotm
      have hfb : dlookup ((App13.rebuildBatch td
          ((dkeys td).filter (fun a => ! dmem full a))).map
            (fun p => (p.1, clean_text (f p.2)))) k = none := by
        rw [dlookup_map_clean, hmd]
        rfl
      have hnfb := (dlookup_eq_none_iff _ k).mp hfb
      rw [dlookup_dupdate_not_mem k _ full hnfb]
      cases hv : dlookup full k with
      | none => rfl
      | some v =>
        rcases hfull (k, v) (dlookup_mem full k v hv) with ⟨t2, ht2, _⟩
        have h3 : dlookup td k = some t2 := ht2
        rw [hk] at h3
        cases h3

theorem translating_step_dm (oracle : App13.Oracle)
    (st : Dict × App13.RecoveryState) (ib : Nat × Dict) :
    (App13.translating_step oracle st ib).2.duplicates_map
      = st.2.duplicates_map := by
  simp only [App13.translating_step]
  split
  · rfl
  · split <;> rfl

theorem translating_fold_dm (oracle : App13.Oracle) :
    ∀ (l : List (Nat × Dict)) (st : Dict × App13.RecoveryState),
    ((l.foldl (App13.translating_step oracle) st)).2.duplicates_map
      = st.2.duplicates_map
  | [], _ => rfl
  | ib :: l, st => by
    rw [List.foldl_cons, translating_fold_dm oracle l _,
      translating_step_dm]

theorem checkpointAfter_dm (f : String → String) (td : Dict) (N : Nat) :
    (checkpointAfter f td N).duplicates_map
      = (App13.deduplicate_content td).2 := by
  unfold checkpointAfter App13.translatingLoop
  rw [translating_fold_dm]

theorem checkpointAfter_sound (f : String → String) (td : Dict) (N : Nat)
    (hnd : (dkeys td).Nodup) :
    Sound f td (checkpointAfter f td N).translated_items := by
  unfold checkpointAfter
  have hbs : ∀ b ∈ (App13.split_dict_into_smart_batches
      (App13.deduplicate_content td).1 150000 2000).take N,
      ∀ p ∈ b, dlookup td p.1 = some p.2 := by
    intro b hb p hp
    have hb' : b ∈ App13.split_dict_into_smart_batches
        (App13.deduplicate_content td).1 150000 2000 :=
      List.take_subset N _ hb
    have hpu := split_batches_entries _ (App13.dkeys_unique_nodup td hnd)
      150000 2000 b hb' p hp
    exact App13.unique_entries_lookup td hnd p hpu
  exact (translatingLoop_sound f td _ _ hbs (Sound_nil f td)
    (Sound_nil f td)).2

/-- With the deterministic backend, any run of `translate_text` whose
starting state is value-sound and whose persisted duplicate map (when a
non-empty checkpoint is resumed) is the one computed from the input
produces the canonical result: every input key maps to the cleaned
deterministic translation of its text, and nothing else is present. -/
theorem translate_text_detOracle_lookup (f : String → String) (td : Dict)
    (resume : Option App13.RecoveryState) (hnd : (dkeys td).Nodup)
    (hsound : Sound f td
      (resume.getD App13.initialRecoveryState).translated_items)
    (hdm : (resume.getD App13.initialRecoveryState).translated_items.isEmpty
        = false →
      (resume.getD App13.initialRecoveryState).duplicates_map
        = (App13.deduplicate_content td).2)
    (k : String) :
    dlookup (App13.translate_text (detOracle f) td resume).1 k
      = (dlookup td k).map (fun t => clean_text (f t)) := by
  simp only [App13.translate_text]
  split
  · -- fresh dedupe path: the persisted `translated_items` are empty
    split
    · exact finalSweep_detOracle_lookup f td _ _ hnd hsound k
    · have hndu := App13.dkeys_unique_nodup td hnd
      have hndf : (dkeys ((App13.deduplicate_content td).1.filter
          (fun p => ! dmem
            (resume.getD App13.initialRecoveryState).translated_items
            p.1))).Nodup :=
        List.Nodup.sublist
          ((List.filter_sublist _).map (fun p : String × String => p.1)) hndu
      have hbs : ∀ b ∈ App13.split_dict_into_smart_batches
          ((App13.deduplicate_content td).1.filter
            (fun p => ! dmem
              (resume.getD App13.initialRecoveryState).translated_items
              p.1)) 150000 2000,
          ∀ p ∈ b, dlookup td p.1 = some p.2 := by
        intro b hb p hp
        have hpin := split_batches_entries _ hndf 150000 2000 b hb p hp
        exact App13.unique_entries_lookup td hnd p
          (List.mem_filter.mp hpin).1
      have hloop := translatingLoop_sound f td
        (App13.split_dict_into_smart_batches
          ((App13.deduplicate_content td).1.filter
            (fun p => ! dmem
              (resume.getD App13.initialRecoveryState).translated_items
              p.1)) 150000 2000)
        ((resume.getD App13.initialRecoveryState).translated_items,
          { resume.getD App13.initialRecoveryState with
              duplicates_map := (App13.deduplicate_content td).2 })
        hbs hsound hsound
      have hrec := reconcileLoop_sound f td _ hloop.1 hloop.2
      have hexp := expandDuplicates_sound f td
        (App13.deduplicate_content td).2 _
        (App13.duplicates_entries_texts td hnd) hrec.1
      exact finalSweep_detOracle_lookup f td _ _ hnd hexp k
  · -- resumed path: the persisted `translated_items` are non-empty
    rename_i hne
    have hne' : (resume.getD
        App13.initialRecoveryState).translated_items.isEmpty = false := by
      revert hne
      cases (resume.getD App13.initialRecoveryState).translated_items.isEmpty
        <;> simp
    rw [hdm hne']
    split
    · exact finalSweep_detOracle_lookup f td _ _ hnd hsound k
    · have hndf : (dkeys ((td.filter (fun p => ! ((App13.deduplicate_content
          td).2.map (fun p => p.2)).contains p.1)).filter
          (fun p => ! dmem
            (resume.getD App13.initialRecoveryState).translated_items
            p.1))).Nodup :=
        List.Nodup.sublist
          (((List.filter_sublist _).trans (List.filter_sublist _)).map
            (fun p : String × String => p.1)) hnd
      have hbs : ∀ b ∈ App13.split_dict_into_smart_batches
          ((td.filter (fun p => ! ((App13.deduplicate_content
            td).2.map (fun p => p.2)).contains p.1)).filter
            (fun p => ! dmem
              (resume.getD App13.initialRecoveryState).translated_items
              p.1)) 150000 2000,
          ∀ p ∈ b, dlookup td p.1 = some p.2 := by
        intro b hb p hp
        have hpin := split_batches_entries _ hndf 150000 2000 b hb p hp
        have hptd : p ∈ td :=
          (List.mem_filter.mp (List.mem_filter.mp hpin).1).1
        exact dlookup_of_mem_of_nodup td p.1 p.2 hnd hptd
      have hloop := translatingLoop_sound f td
        (App13.split_dict_into_smart_batches
          ((td.filter (fun p => ! ((App13.deduplicate_content
            td).2.map (fun p => p.2)).contains p.1)).filter
            (fun p => ! dmem
              (resume.getD App13.initialRecoveryState).translated_items
              p.1)) 150000 2000)
        ((resume.getD App13.initialRecoveryState).translated_items,
          resume.getD App13.initialRecoveryState)
        hbs hsound hsound
      have hrec := reconcileLoop_sound f td _ hloop.1 hloop.2
      have hexp := expandDuplicates_sound f td
        (App13.deduplicate_content td).2 _
        (App13.duplicates_entries_texts td hnd) hrec.1
      exact finalSweep_detOracle_lookup f td _ _ hnd hexp k

/-! ## Claim theorems -/
/-- C10: the key set of `translated_items` is monotone non-decreasing at
every orchestrator step — a `TRANSLATING` batch step, a sub-batch step of
`RECONCILING_FAILURES`, and the final missing-key sweep each only add or
overwrite entries — and across a whole `translate_text` run every key
already present in the starting (checkpoint) state remains covered both in
the final persisted state and in the returned TranslationResult. -/
theorem translated_items_monotone :
    (∀ (oracle : App13.Oracle) (st : Dict × App13.RecoveryState)
        (ib : Nat × Dict) (k : String),
        k ∈ dkeys st.2.translated_items →
        k ∈ dkeys (App13.translating_step oracle st ib).2.translated_items)
    ∧ (∀ (oracle : App13.Oracle) (fb : App13.FailedBatch)
        (s : Dict × App13.RecoveryState) (isb : Nat × Dict) (k : String),
        k ∈ dkeys s.2.translated_items →
        k ∈ dkeys (App13.reconcile_sub_step oracle fb s isb).2.translated_items)
    ∧ (∀ (oracle : App13.Oracle) (text_dict full : Dict)
        (rs : App13.RecoveryState) (k : String),
        k ∈ dkeys rs.translated_items →
        k ∈ dkeys (App13.finalSweep oracle text_dict full rs).2.translated_items)
    ∧ (∀ (oracle : App13.Oracle) (text_dict : Dict)
        (resume : Option App13.RecoveryState) (k : String),
        k ∈ dkeys (resume.getD App13.initialRecoveryState).translated_items →
        k ∈ dkeys (App13.translate_text oracle text_dict resume).2.translated_items
        ∧ k ∈ dkeys (App13.translate_text oracle text_dict resume).1) :=
  ⟨fun oracle st ib k h => translating_step_mono_titems oracle st ib k h,
   fun oracle fb s isb k h => reconcile_sub_step_mono_titems oracle fb s isb k h,
   fun oracle text_dict full rs k h =>
     finalSweep_mono_titems oracle text_dict full rs k h,
   fun oracle text_dict resume k h =>
     ⟨translate_text_mono_titems oracle text_dict resume k h,
      translate_text_mono_fst oracle text_dict resume k h⟩⟩

/-- C10 witness: a checkpointed translation of `"a"` survives a full run
whose every backend call fails. -/
theorem translated_items_monotone_witness :
    "a" ∈ dkeys (App13.translate_text (fun _ _ _ => Except.error "x") []
        (some { completed_batches := [], failed_batches := [],
                translated_items := [("a", "b")],
                duplicates_map := [] })).2.translated_items
    ∧ "a" ∈ dkeys (App13.translate_text (fun _ _ _ => Except.error "x") []
        (some { completed_batches := [], failed_batches := [],
                translated_items := [("a", "b")],
                duplicates_map := [] })).1 :=
  translated_items_monotone.2.2.2 (fun _ _ _ => Except.error "x") []
    (some { completed_batches := [], failed_batches := [],
            translated_items := [("a", "b")], duplicates_map := [] }) "a"
    (by decide)

/-- C6 (amended): the parsing cascade raises only after every strategy is
exhausted — strict parse, repair pass, regex key-value salvage and block
extraction have all failed, where a block extraction whose merged result
is the empty (falsy) dict also counts as failure (`if extracted_result:`,
line 456) — but the order is: strict parse, repair pass, **regex
key-value salvage** (inside `repair_json`), and block extraction
**last** — the regex salvage runs before block extraction, and block
extraction is used only when strict, repaired and salvage have all
failed. -/
theorem parse_response_cascade (t : String) :
    (App13.parse_response t = none ↔
      ∃ e, json_loads t = Except.error e
        ∧ (json_loads (String.mk (App13.repairSteps t e))).isOk = false
        ∧ App13.regexSalvage t.data = []
        ∧ (App13.extract_json_blocks t = none
          ∨ App13.extract_json_blocks t = some []))
    ∧ (∀ e, json_loads t = Except.error e →
        (json_loads (String.mk (App13.repairSteps t e))).isOk = false →
        App13.regexSalvage t.data ≠ [] →
        App13.parse_response t = some (App13.regexSalvage t.data)) := by
  constructor
  · cases h1 : json_loads t with
    | ok o =>
      have hpr : App13.parse_response t = some o := by
        simp [App13.parse_response, h1]
      constructor
      · intro hc
        rw [hpr] at hc
        cases hc
      · rintro ⟨e2, he2, _, _, _⟩
        cases he2
    | error e =>
      cases h2 : json_loads (String.mk (App13.repairSteps t e)) with
      | ok o =>
        have hpr : App13.parse_response t = some o := by
          simp [App13.parse_response, App13.repair_json, h1, h2]
        constructor
        · intro hc
          rw [hpr] at hc
          cases hc
        · rintro ⟨e2, he2, hrep2, _, _⟩
          injection he2 with he2e
          subst he2e
          rw [h2] at hrep2
          simp [Except.isOk, Except.toBool] at hrep2
      | error e2 =>
        by_cases h3 : App13.regexSalvage t.data = []
        · have hpr : App13.parse_response t
              = (match App13.extract_json_blocks t with
                 | some r => if r.isEmpty then none else some r
                 | none => none) := by
            simp [App13.parse_response, App13.repair_json, h1, h2, h3]
          rw [hpr]
          cases hex : App13.extract_json_blocks t with
          | none =>
            constructor
            · intro _
              exact ⟨e, rfl, by rw [h2]; rfl, h3, Or.inl rfl⟩
            · intro _
              rfl
          | some r =>
            cases r with
            | nil =>
              constructor
              · intro _
                exact ⟨e, rfl, by rw [h2]; rfl, h3, Or.inr rfl⟩
              · intro _
                rfl
            | cons q r2 =>
              constructor
              · intro hc
                simp at hc
              · rintro ⟨e3, _, _, _, hex3⟩
                rcases hex3 with hx | hx
                · cases hx
                · injection hx with hx2
                  cases hx2
        · have hpr : App13.parse_response t
              = some (App13.regexSalvage t.data) := by
            simp [App13.parse_response, App13.repair_json, h1, h2,
              List.isEmpty_iff, h3]
          rw [hpr]
          constructor
          · intro hc
            cases hc
          · rintro ⟨e3, _, _, hsal, _⟩
            exact absurd hsal h3
  · intro e he hrep hsal
    have h2 : ∃ e2, json_loads (String.mk (App13.repairSteps t e))
        = Except.error e2 := by
      cases hx : json_loads (String.mk (App13.repairSteps t e)) with
      | ok o =>
        rw [hx] at hrep
        cases hrep
      | error e2 => exact ⟨e2, rfl⟩
    rcases h2 with ⟨e2, h2⟩
    simp [App13.parse_response, App13.repair_json, he, h2,
      List.isEmpty_iff, hsal]

/-- C6 witness: on a malformed response where the repaired parse still
fails but the salvage pattern matches, the cascade returns the salvage
result. -/
theorem parse_response_cascade_witness :
    App13.parse_response "x] \x7b\"a\": \"1\"\x7d \"k\": \"v\""
      = some (App13.regexSalvage ("x] \x7b\"a\": \"1\"\x7d \"k\": \"v\"").data) :=
  (parse_response_cascade "x] \x7b\"a\": \"1\"\x7d \"k\": \"v\"").2
    JErr.other rfl rfl (by decide)

/-- C6 counterexample: on this response the cascade returns the regex
salvage result even though structural block extraction succeeds (with a
different mapping) — refuting "the regex salvage is used only when all
structural parsing (strict, repaired, and block extraction) has entirely
failed". -/
theorem parse_response_order_counterexample :
    App13.parse_response "x] \x7b\"a\": \"1\"\x7d \"k\": \"v\""
      = some [("a", JVal.str "1"), ("k", JVal.str "v")]
    ∧ App13.extract_json_blocks "x] \x7b\"a\": \"1\"\x7d \"k\": \"v\""
      = some [("a", JVal.str "1")]
    ∧ (some [("a", JVal.str "1"), ("k", JVal.str "v")] : Option JObj)
      ≠ some [("a", JVal.str "1")] := by
  refine ⟨rfl, rfl, by decide⟩

/-- C1 (amended): in app13's `RECONCILING_FAILURES`
(`translate_text`, lines 576-610) every retried batch is removed from
`failed_batches` unconditionally — after the loop the list is empty even
when sub-batches failed.  The remove-only-if-all-sub-batches-succeed
policy holds only in `batch-recovery.py`'s `retry_failed_batches`: there a
failed batch remains recorded (with its original fragment id list) exactly
when some sub-batch's translation call did not succeed. -/
theorem failed_batch_removal_semantics :
    (∀ (oracle : App13.Oracle) (text_dict : Dict)
        (st : Dict × App13.RecoveryState),
        (App13.reconcileLoop oracle text_dict st).2.failed_batches = [])
    ∧ (∀ (oracle : String → Dict → Except String Dict) (text_dict : Dict)
        (fb : BatchRecovery.FailedBatchInfo),
        fb ∈ (BatchRecovery.retry_failed_batches oracle text_dict
            ⟨[], [fb], []⟩).failed_batches
          ↔ ¬ ∀ isb ∈ (App13.chunkList (max 1 (fb.batch_size / 2))
                (App13.rebuildBatch text_dict fb.items)).enum,
              (oracle (fb.batch_index ++ "." ++ toString (isb.1 + 1)) isb.2).isOk
                = true) := by
  constructor
  · intro oracle text_dict st
    show ((st.2.failed_batches.foldl
        (App13.reconcile_step oracle text_dict) st).2.failed_batches) = []
    rw [reconcileLoop_failed oracle text_dict st.2.failed_batches st]
    exact foldl_erase_self st.2.failed_batches
  · intro oracle text_dict fb
    have hfold : BatchRecovery.retry_failed_batches oracle text_dict ⟨[], [fb], []⟩
        = BatchRecovery.retry_step oracle text_dict ⟨[], [fb], []⟩ fb := rfl
    rw [hfold]
    rcases retry_inner_spec oracle fb (max 1 (fb.batch_size / 2))
        ((App13.chunkList (max 1 (fb.batch_size / 2))
          (App13.rebuildBatch text_dict fb.items)).enum)
        ⟨[], [fb], []⟩ 0 [] rfl (by intro e he; cases he)
      with ⟨tail2, h1, h2, h3⟩
    simp only [BatchRecovery.retry_step]
    by_cases hcond : ((App13.chunkList (max 1 (fb.batch_size / 2))
          (App13.rebuildBatch text_dict fb.items)).enum.foldl
            (BatchRecovery.retry_inner_step oracle fb (max 1 (fb.batch_size / 2)))
            (⟨[], [fb], []⟩, 0)).2
        = (App13.chunkList (max 1 (fb.batch_size / 2))
            (App13.rebuildBatch text_dict fb.items)).length
    · rw [if_pos hcond]
      have hfail : (((App13.chunkList (max 1 (fb.batch_size / 2))
            (App13.rebuildBatch text_dict fb.items)).enum.foldl
              (BatchRecovery.retry_inner_step oracle fb (max 1 (fb.batch_size / 2)))
              (⟨[], [fb], []⟩, 0)).1.failed_batches).erase fb = tail2 := by
        rw [h1, List.erase_cons_head]
      apply iff_of_false
      · intro hmem
        rw [show (∀ {st : BatchRecovery.RecoveryState},
            ({ st with failed_batches := st.failed_batches.erase fb } :
              BatchRecovery.RecoveryState).failed_batches
            = st.failed_batches.erase fb) from fun {st} => rfl] at hmem
        rw [hfail] at hmem
        exact h2 fb hmem rfl
      · intro hnall
        apply hnall
        apply List.countP_eq_length.mp
        rw [List.enum_length]
        omega
    · rw [if_neg hcond]
      apply iff_of_true
      · rw [h1]
        exact List.mem_cons_self _ _
      · intro hall
        apply hcond
        have hc := List.countP_eq_length.mpr hall
        rw [h3, hc, List.enum_length]
        simp

/-- C1 counterexample: a failed batch whose single sub-batch still fails
is nevertheless removed — after app13's reconciliation `failed_batches`
is empty although the sub-batch's translation call (3 retries included)
raised an error. -/
theorem failed_batch_removal_counterexample :
    (App13.reconcileLoop (fun _ _ _ => Except.error "boom") [("a", "x")]
        ([], { completed_batches := [],
               failed_batches := [⟨"batch_1", ["a"], "err"⟩],
               translated_items := [], duplicates_map := [] })).2.failed_batches
      = []
    ∧ App13.translate_batch (fun _ _ _ => Except.error "boom")
        "batch_1.1" [("a", "x")] 3 = Except.error "boom" := by
  constructor
  · rfl
  · rfl

/-- C9 (amended): writing a checkpoint is **not** crash-atomic:
`save_recovery_state` truncates and rewrites the checkpoint file in place
(`open(recovery_file, 'w')` then `json.dump`), so a crash between the
truncating open and the completed write leaves the file empty — neither
the previous checkpoint nor the new one; no write-to-temp-then-rename
mechanism exists. -/
theorem save_recovery_state_not_atomic (old serialized : String)
    (hold : old ≠ "") (hnew : serialized ≠ "") :
    1 < (save_recovery_state_steps serialized).length
    ∧ runSavePrefix (save_recovery_state_steps serialized) 1 old ≠ old
    ∧ runSavePrefix (save_recovery_state_steps serialized) 1 old ≠ serialized := by
  have h1 : runSavePrefix (save_recovery_state_steps serialized) 1 old = "" := rfl
  refine ⟨by show 1 < 2; decide, ?_, ?_⟩
  · rw [h1]
    exact fun h => hold h.symm
  · rw [h1]
    exact fun h => hnew h.symm

/-- C9 witness: concrete old/new checkpoint contents. -/
theorem save_recovery_state_not_atomic_witness :
    1 < (save_recovery_state_steps "new").length
    ∧ runSavePrefix (save_recovery_state_steps "new") 1 "old" ≠ "old"
    ∧ runSavePrefix (save_recovery_state_steps "new") 1 "old" ≠ "new" :=
  save_recovery_state_not_atomic "old" "new" (by decide) (by decide)

/-- C9 counterexample: starting from a persisted checkpoint `"old"`, a
crash right after the truncating open leaves an empty file — the
previously persisted checkpoint is corrupted, so the save is not
write-to-temp-then-rename atomic. -/
theorem save_recovery_state_counterexample :
    runSavePrefix (save_recovery_state_steps "new") 1 "old" = ""
    ∧ ("" : String) ≠ "old"
    ∧ ("" : String) ≠ "new" := by
  refine ⟨rfl, by decide, by decide⟩

/-- C3: for every fragment set with distinct ids, partitioning the
deduplicated set produces batches whose ids are, taken together, a
permutation of the unique keys (so their union is exactly
`keys(dedupe(F).unique)` and no id appears twice), the batches are
pairwise key-disjoint, and empty input yields zero batches. -/
theorem split_batches_partition (input : Dict) (mx pr : Nat)
    (hnd : (dkeys input).Nodup) :
    (((App13.split_dict_into_smart_batches
          (App13.deduplicate_content input).1 mx pr).map dkeys).flatten).Perm
        (dkeys (App13.deduplicate_content input).1)
    ∧ (App13.split_dict_into_smart_batches
          (App13.deduplicate_content input).1 mx pr).Pairwise
        (fun b1 b2 => List.Disjoint (dkeys b1) (dkeys b2))
    ∧ (input = [] →
        App13.split_dict_into_smart_batches
          (App13.deduplicate_content input).1 mx pr = []) := by
  have hndu := App13.dkeys_unique_nodup input hnd
  have hperm := App13.split_batches_flatten (App13.deduplicate_content input).1 hndu mx pr
  have hkperm : (((App13.split_dict_into_smart_batches
      (App13.deduplicate_content input).1 mx pr).flatten).map
        (fun p : String × String => p.1)).Perm
      (dkeys (App13.deduplicate_content input).1) :=
    hperm.map (fun p : String × String => p.1)
  have hmapflat : (((App13.split_dict_into_smart_batches
      (App13.deduplicate_content input).1 mx pr).map dkeys).flatten)
      = ((App13.split_dict_into_smart_batches
          (App13.deduplicate_content input).1 mx pr).flatten).map
        (fun p : String × String => p.1) :=
    (List.map_flatten _ _).symm
  refine ⟨?_, ?_, ?_⟩
  · rw [hmapflat]
    exact hkperm
  · have hnd2 : (((App13.split_dict_into_smart_batches
        (App13.deduplicate_content input).1 mx pr).map dkeys).flatten).Nodup := by
      rw [hmapflat]
      exact hkperm.nodup_iff.mpr hndu
    exact List.pairwise_map.mp (List.nodup_flatten.mp hnd2).2
  · intro h
    subst h
    rfl

/-- C3 witness: the deduplicated three-fragment sample is partitioned into
batches whose keys are exactly the two unique ids, pairwise disjoint. -/
theorem split_batches_partition_witness :
    (((App13.split_dict_into_smart_batches
          (App13.deduplicate_content
            [("id1", "Hello"), ("id2", "Hello"), ("id3", "World")]).1
          2020 2000).map dkeys).flatten).Perm
        (dkeys (App13.deduplicate_content
          [("id1", "Hello"), ("id2", "Hello"), ("id3", "World")]).1)
    ∧ (App13.split_dict_into_smart_batches
          (App13.deduplicate_content
            [("id1", "Hello"), ("id2", "Hello"), ("id3", "World")]).1
          2020 2000).Pairwise
        (fun b1 b2 => List.Disjoint (dkeys b1) (dkeys b2))
    ∧ ([("id1", "Hello"), ("id2", "Hello"), ("id3", "World")] = ([] : Dict) →
        App13.split_dict_into_smart_batches
          (App13.deduplicate_content
            [("id1", "Hello"), ("id2", "Hello"), ("id3", "World")]).1
          2020 2000 = []) :=
  split_batches_partition
    [("id1", "Hello"), ("id2", "Hello"), ("id3", "World")] 2020 2000 (by decide)

/-- C4 (amended): every batch respects
`promptOverhead + batch_cost ≤ maxTokens`, except that a batch may be a
single fragment whose estimated cost **plus the prompt overhead** exceeds
`maxTokens` (the code closes a batch when
`current_token_count + item_tokens > max_input_tokens`, so the isolated
fragment's own cost need only exceed `maxTokens − promptOverhead`, not
`maxTokens`). -/
theorem split_batches_token_bound (input : Dict) (mx pr : Nat)
    (hnd : (dkeys input).Nodup) :
    ∀ b ∈ App13.split_dict_into_smart_batches input mx pr,
      pr + App13.batch_cost b ≤ mx ∨
        ∃ k v, b = [(k, v)] ∧ mx < pr + App13.item_tokens k v := by
  intro b hb
  have hbase := App13.split_go_bound mx pr (App13.sortItems input) [] pr
    (by simpa [dkeys] using App13.sortItems_keys_nodup input hnd)
    (by simp [App13.batch_cost])
    (Or.inl rfl) b hb
  rcases hbase with h | h
  · exact Or.inl h
  · rcases h with ⟨⟨k, v⟩, hkv⟩
    by_cases hle : pr + App13.batch_cost b ≤ mx
    · exact Or.inl hle
    · right
      refine ⟨k, v, hkv, ?_⟩
      have hcost : App13.batch_cost b = App13.item_tokens k v := by
        rw [hkv]
        simp [App13.batch_cost]
      rw [← hcost]
      exact Nat.not_le.mp hle

/-- C4 witness: at maxTokens 30 / overhead 10, the only batch of the
one-fragment input is within budget. -/
theorem split_batches_token_bound_witness :
    10 + App13.batch_cost [("k", "abcd")] ≤ 30 ∨
      ∃ k v, ([("k", "abcd")] : Dict) = [(k, v)] ∧
        30 < 10 + App13.item_tokens k v :=
  split_batches_token_bound [("k", "abcd")] 30 10 (by decide)
    [("k", "abcd")] (by decide)

/-- C4 counterexample: with maxTokens 20 and promptOverhead 10, the lone
fragment `("k", "abcd")` costs 13 ≤ maxTokens, yet the singleton batch
produced exceeds the budget (10 + 13 > 20) — so the claim's sole-exception
clause ("own estimated cost already exceeds maxTokens") does not cover this
over-budget batch. -/
theorem split_batches_token_bound_counterexample :
    App13.split_dict_into_smart_batches [("k", "abcd")] 20 10 = [[("k", "abcd")]]
    ∧ 20 < 10 + App13.batch_cost [("k", "abcd")]
    ∧ App13.item_tokens "k" "abcd" ≤ 20 := by decide

/-- C7: `deduplicate_content` picks the first-encountered id of each text
as representative; every id maps to the representative of its text; every
representative maps to itself; an id and its representative carry the same
text; and the unique dict's keys are exactly the representatives. -/
theorem deduplicate_content_correct (input : Dict) (hnd : (dkeys input).Nodup) :
    (∀ k v, (k, v) ∈ input →
        dlookup (App13.deduplicate_content input).2 k = App13.firstKeyWith input v)
    ∧ (∀ k r, dlookup (App13.deduplicate_content input).2 k = some r →
        dlookup (App13.deduplicate_content input).2 r = some r)
    ∧ (∀ k r, dlookup (App13.deduplicate_content input).2 k = some r →
        dlookup input r = dlookup input k)
    ∧ (∀ k, k ∈ dkeys input ↔ k ∈ dkeys (App13.deduplicate_content input).2)
    ∧ (∀ r, r ∈ dkeys (App13.deduplicate_content input).1 ↔
        ∃ k, dlookup (App13.deduplicate_content input).2 k = some r) := by
  refine ⟨?_, ?_, ?_, ?_, ?_⟩
  · exact fun k v hkv => App13.dlookup_duplicates_map input hnd k v hkv
  · intro k r h
    have hmem := dlookup_mem _ _ _ h
    rw [App13.duplicates_map_eq input hnd] at hmem
    unfold App13.dmSpec at hmem
    rcases List.mem_flatMap.mp hmem with ⟨q, hq, hpq⟩
    rcases List.mem_map.mp hpq with ⟨k', _, he⟩
    have hr : r = q.2.headD "" := by simpa using (congrArg Prod.snd he).symm
    have hrep := App13.group_rep_eq input q hq
    rw [← hr] at hrep
    exact App13.rep_maps_to_self input hnd q.1 r hrep
  · intro k r h
    rcases App13.duplicates_entries_texts input hnd _ (dlookup_mem _ _ _ h)
      with ⟨t, h1, h2⟩
    rw [h1, h2]
  · intro k
    exact (App13.dm_keys_iff input hnd k).symm
  · exact fun r => App13.unique_keys_iff input hnd r

/-- C7 witness: on the Hello/Hello/World sample, `id2` maps to the
first-encountered id `id1`, and the unique keys are `id1, id3`. -/
theorem deduplicate_content_correct_witness :
    dlookup (App13.deduplicate_content
        [("id1", "Hello"), ("id2", "Hello"), ("id3", "World")]).2 "id2"
      = App13.firstKeyWith
          [("id1", "Hello"), ("id2", "Hello"), ("id3", "World")] "Hello"
    ∧ App13.firstKeyWith
        [("id1", "Hello"), ("id2", "Hello"), ("id3", "World")] "Hello"
      = some "id1"
    ∧ dkeys (App13.deduplicate_content
        [("id1", "Hello"), ("id2", "Hello"), ("id3", "World")]).1
      = ["id1", "id3"] :=
  ⟨(deduplicate_content_correct
      [("id1", "Hello"), ("id2", "Hello"), ("id3", "World")] (by decide)).1
      "id2" "Hello" (by decide),
    by decide, by decide⟩

/-- C8 (amended): the estimator returns 0 for null input, computes
`narrow_count // 4 + ⌊wide_count/1.5⌋ + 1` for any string, and hence
returns at least 1 for **every** string — including the empty string (the
claim's "0 for null/empty input" holds only for null). -/
theorem estimate_tokens_contract :
    PptxTranslator.estimate_tokens none = 0
    ∧ (∀ s, PptxTranslator.estimate_tokens (some s)
        = PptxTranslator.narrowCount s / 4 + 2 * PptxTranslator.wideCount s / 3 + 1)
    ∧ (∀ s, 1 ≤ PptxTranslator.estimate_tokens (some s)) := by
  refine ⟨rfl, fun s => rfl, fun s => ?_⟩
  show 1 ≤ _ / 4 + 2 * _ / 3 + 1
  exact Nat.le_add_left 1 _

/-- C8 counterexample: both cited estimators return 1, not 0, on the empty
string. -/
theorem estimate_tokens_empty_counterexample :
    PptxTranslator.estimate_tokens (some "") = 1
    ∧ App13.estimate_tokens (some "") = 1
    ∧ (1 : Nat) ≠ 0 := by decide

/-- C5: In the `TRANSLATING` loop of a fresh run, every batch whose
translation call exhausts its retries is recorded in `failed_batches` with
its fragment id list and the last error, and the loop continues with the
next batch (the failure records are exactly one per failing batch, in
order); and the final `TranslationResult` covers every fragment whose
representative lies in a batch whose translation call succeeded —
provided the backend returns every requested key on success. -/
theorem batch_failure_isolated (oracle : App13.Oracle) (td : Dict)
    (hkeys : ∀ label attempt payload res,
      oracle label attempt payload = Except.ok res →
      ∀ k, k ∈ dkeys payload → k ∈ dkeys res) :
    ((App13.translatingLoop oracle
        (App13.split_dict_into_smart_batches
          (App13.deduplicate_content td).1 150000 2000)
        ([], { App13.initialRecoveryState with
                duplicates_map := (App13.deduplicate_content td).2 })).2.failed_batches
      = (List.enumFrom 0
          (App13.split_dict_into_smart_batches
            (App13.deduplicate_content td).1 150000 2000)).filterMap
            (failRecordOf oracle))
    ∧ (∀ i b, (i, b) ∈ List.enumFrom 0
          (App13.split_dict_into_smart_batches
            (App13.deduplicate_content td).1 150000 2000) →
        failRecordOf oracle (i, b) = none →
        ∀ r, r ∈ dkeys b →
        ∀ k, dlookup (App13.deduplicate_content td).2 k = some r →
        k ∈ dkeys (App13.translate_text oracle td none).1) := by
  have hfresh : ∀ i', (0 : Nat) ≤ i' →
      ¬ App13.batchLabel i' ∈ (([], { App13.initialRecoveryState with
          duplicates_map := (App13.deduplicate_content td).2 }) :
        Dict × App13.RecoveryState).2.completed_batches := by
    intro i' _ h
    simp [App13.initialRecoveryState] at h
  have hspec := translating_fold_spec oracle hkeys
    (App13.split_dict_into_smart_batches
      (App13.deduplicate_content td).1 150000 2000)
    0
    ([], { App13.initialRecoveryState with
            duplicates_map := (App13.deduplicate_content td).2 })
    hfresh
  constructor
  · have h1 := hspec.1
    simpa [App13.initialRecoveryState] using h1
  · intro i b hib hfr r hr k hdm
    cases hue : (App13.deduplicate_content td).1.isEmpty with
    | true =>
      have hbe : (App13.deduplicate_content td).1 = [] :=
        List.isEmpty_iff.mp hue
      rw [hbe] at hib
      have hsplit : App13.split_dict_into_smart_batches [] 150000 2000
          = [] := rfl
      rw [hsplit] at hib
      cases hib
    | false =>
      rw [translate_text_none_eq oracle td hue]
      apply finalSweep_mono_fst
      have hok : ∃ res, App13.translate_batch oracle (toString (i + 1)) b 2
          = Except.ok res := by
        cases ht : App13.translate_batch oracle (toString (i + 1)) b 2 with
        | ok res => exact ⟨res, rfl⟩
        | error e =>
          exfalso
          have hsome : failRecordOf oracle (i, b)
              = some ⟨App13.batchLabel i, dkeys b, e⟩ := by
            simp only [failRecordOf]
            rw [ht]
          rw [hsome] at hfr
          cases hfr
      rcases hok with ⟨res, ht⟩
      have hr1 : r ∈ dkeys (App13.translatingLoop oracle
          (App13.split_dict_into_smart_batches
            (App13.deduplicate_content td).1 150000 2000)
          ([], { App13.initialRecoveryState with
                  duplicates_map := (App13.deduplicate_content td).2 })).1 :=
        hspec.2 (i, b) hib res ht r hr
      have hr2 : r ∈ dkeys (App13.reconcileLoop oracle td
          (App13.translatingLoop oracle
            (App13.split_dict_into_smart_batches
              (App13.deduplicate_content td).1 150000 2000)
            ([], { App13.initialRecoveryState with
                    duplicates_map := (App13.deduplicate_content td).2 }))).1 :=
        reconcileLoop_mono_fst oracle td _ r hr1
      by_cases hkr : k = r
      · subst hkr
        exact expandDuplicates_supset _ _ k hr2
      · exact expandDuplicates_covers _ _ k r hkr (dlookup_mem _ k r hdm)
          ((dmem_iff_mem_dkeys _ r).mpr hr2)

theorem batch_failure_isolated_witness :
    "a" ∈ dkeys (App13.translate_text echoOracle [("a", "x")] none).1 :=
  (batch_failure_isolated echoOracle [("a", "x")] echoOracle_keys).2
    0 [("a", "x")] (by decide) (by decide) "a" (by decide) "a" (by decide)

/-- C5 counterexample to the terminal-coverage clause as stated: with a
backend that fails every request on input `[("a","x"), ("b","x")]`, the
only failure record lists fragment id "a", so fragment "b" lies outside
every failed batch, yet the final `TranslationResult` does not cover
"b" (its representative "a" was never translated and the final sweep
also failed). -/
theorem batch_failure_isolated_counterexample :
    (((App13.translatingLoop failOracle
        (App13.split_dict_into_smart_batches
          (App13.deduplicate_content [("a", "x"), ("b", "x")]).1 150000 2000)
        ([], { App13.initialRecoveryState with
                duplicates_map :=
                  (App13.deduplicate_content [("a", "x"), ("b", "x")]).2 })).2.failed_batches).all
        (fun fb => ! fb.keys.contains "b") = true)
    ∧ ("b" ∈ dkeys [("a", "x"), ("b", "x")])
    ∧ dmem (App13.translate_text failOracle [("a", "x"), ("b", "x")] none).1 "b"
        = false := by decide

/-- C2: with a deterministic, always-succeeding backend stub, resuming a
job from the checkpoint persisted after the first N completed batches and
re-running it to completion yields a `TranslationResult` identical — as a
key-to-value mapping, which is how Python compares dicts — to running the
same job uninterrupted end-to-end, for every fragment set with distinct
ids.  (Both results map every fragment id to the cleaned deterministic
translation of its text: the final sweep re-requests any key the resumed
run's batch-id skipping left untranslated.) -/
theorem resume_checkpoint_idempotent (f : String → String) (td : Dict)
    (N : Nat) (hnd : (dkeys td).Nodup) (k : String) :
    dlookup (App13.translate_text (detOracle f) td
        (some (checkpointAfter f td N))).1 k
      = dlookup (App13.translate_text (detOracle f) td none).1 k := by
  rw [translate_text_detOracle_lookup f td (some (checkpointAfter f td N))
      hnd (checkpointAfter_sound f td N hnd)
      (fun _ => checkpointAfter_dm f td N),
    translate_text_detOracle_lookup f td none hnd (Sound_nil f td)
      (fun h => absurd h (by decide))]

theorem resume_checkpoint_idempotent_witness :
    dlookup (App13.translate_text (detOracle (fun s => s)) [("a", "x")]
        (some (checkpointAfter (fun s => s) [("a", "x")] 1))).1 "a"
      = dlookup (App13.translate_text (detOracle (fun s => s)) [("a", "x")]
          none).1 "a" :=
  resume_checkpoint_idempotent (fun s => s) [("a", "x")] 1 (by decide) "a"

end GSlides
